import Mathlib

/-!
# Verification of the krates dependency-graph builder

A shallow embedding, in Lean 4, of the core of the `krates` crate: the
package-identifier micro-parser (`Kid`), the capability-reference
classifier (`ParsedFeature`), the exclusion specification matcher
(`PkgSpec`), and the feature-aware graph builder
(`Builder::build_with_metadata`) together with the query facade
(`Krates::nid_for_kid`, `Krates::krates_filtered`).

Rust strings are modelled as `List Char` (all inputs of interest are
ASCII, so byte offsets and character offsets coincide).  Fallible code
(`panic!`, `unreachable!`, `unwrap`, `expect`) is modelled with
`Option`, `none` standing for a crash.  External collaborators that are
not part of this repository (the `cfg-expr` expression language, the
`semver` requirement matcher, the optional crates.io index) are modelled
abstractly where noted, by their documented interface.
-/

set_option maxRecDepth 10000

namespace Krates

/-- Rust `&str` modelled as a list of characters. -/
abbrev Str := List Char

/-- Convenience conversion used to write string literals in examples. -/
def str (s : String) : Str := s.toList

/-- Does `pat` occur at the start of `s`?  Models `str::starts_with`. -/
def strStarts (s pat : Str) : Bool := pat.isPrefixOf s

/-- Models `str::find(&str)`: byte index of the first occurrence of
`pat` inside `s`, if any. -/
def strFindSub (s pat : Str) : Option Nat :=
  match s with
  | [] => if pat.isEmpty then some 0 else none
  | _ :: rest =>
    if pat.isPrefixOf s then some 0
    else (strFindSub rest pat).map (· + 1)

/-- Models `str::find(char)`. -/
def strFindChar (s : Str) (c : Char) : Option Nat :=
  strFindSub s [c]

/-- Models `str::rfind(char)`: byte index of the last occurrence. -/
def strRfindChar (s : Str) (c : Char) : Option Nat :=
  match s with
  | [] => none
  | x :: rest =>
    match strRfindChar rest c with
    | some i => some (i + 1)
    | none => if x = c then some 0 else none

/-- Models `str::contains(char)`. -/
def strContainsChar (s : Str) (c : Char) : Bool :=
  s.contains c

/-- `DepKind`: the dependency kind; a crate can depend on the same
crate multiple times with different kinds. -/
inductive DepKind where
  | normal
  | build
  | dev
  deriving DecidableEq, Repr

/-! ## Capability-reference parser (`src/builder/features.rs`) -/

/-- The classification of a single capability-list entry
(`features::Feature`). -/
inductive Feature where
  | krate (name : Str)
  | weak (krate feature : Str)
  | strong (krate feature : Str)
  | simple (name : Str)
  deriving DecidableEq, Repr

/-- `features::FeatureKind`: the tag recorded by the classifier, with
the byte index of the separator where applicable. -/
inductive FeatureKind where
  | krate
  | weak (ind : Nat)
  | strong (ind : Nat)
  | simple
  deriving DecidableEq, Repr

/-- `features::ParsedFeature`: the original entry plus its tag. -/
structure ParsedFeature where
  inner : Str
  kind : FeatureKind

/-- `impl From<&str> for ParsedFeature`: classify by textual pattern,
checked in order `dep:` / `?/` / `/` / anything else. -/
def ParsedFeature.from (f : Str) : ParsedFeature :=
  let kind :=
    if strStarts f (str "dep:") then FeatureKind.krate
    else match strFindSub f (str "?/") with
    | some ind => FeatureKind.weak ind
    | none =>
      match strFindChar f '/' with
      | some ind => FeatureKind.strong ind
      | none => FeatureKind.simple
  { inner := f, kind }

/-- `ParsedFeature::feat`: recover the tagged union from the recorded
separator indices. -/
def ParsedFeature.feat (p : ParsedFeature) : Feature :=
  match p.kind with
  | .krate => .krate (p.inner.drop 4)
  | .weak ind => .weak (p.inner.take ind) (p.inner.drop (ind + 2))
  | .strong ind => .strong (p.inner.take ind) (p.inner.drop (ind + 1))
  | .simple => .simple p.inner

/-- Composition used throughout the builder: classify an entry string. -/
def parseFeature (f : Str) : Feature := (ParsedFeature.from f).feat

/-! ## Package identifiers (`src/lib.rs`, `Kid`) -/

/-- A crate's unique identifier: the full package id string as supplied
by cargo, plus the sub-slices for the name, version and source
components. -/
structure Kid where
  repr : Str
  nameR : Nat × Nat
  verR : Nat × Nat
  srcR : Nat × Nat
  deriving DecidableEq, Repr

/-- Rust slice `s[r.0 .. r.1]`. -/
def slice (s : Str) (r : Nat × Nat) : Str := (s.drop r.1).take (r.2 - r.1)

/-- `Kid::name`. -/
def Kid.name (k : Kid) : Str := slice k.repr k.nameR

/-- `Kid::version`. -/
def Kid.version (k : Kid) : Str := slice k.repr k.verR

/-- `Kid::source`. -/
def Kid.source (k : Kid) : Str := slice k.repr k.srcR

/-- The fixed percent-encoding table of `From<PackageId> for Kid`; an
encoding outside the table is a fatal parse error. -/
def decTable (c1 c2 : Char) : Option Char :=
  match c1, c2 with
  | '2', 'F' => some '/' | '2', 'f' => some '/'
  | '2', '1' => some '!'
  | '2', '2' => some (Char.ofNat 34)
  | '2', '3' => some '#'
  | '2', '4' => some '$'
  | '2', '5' => some '%'
  | '2', '6' => some '&'
  | '2', '7' => some (Char.ofNat 39)
  | '2', '8' => some '('
  | '2', '9' => some ')'
  | '2', 'A' => some '*' | '2', 'a' => some '*'
  | '2', 'B' => some '+' | '2', 'b' => some '+'
  | '2', 'C' => some ',' | '2', 'c' => some ','
  | '2', 'D' => some '-' | '2', 'd' => some '-'
  | '2', 'E' => some '.' | '2', 'e' => some '.'
  | '3', 'B' => some ';' | '3', 'b' => some ';'
  | '3', 'C' => some '<' | '3', 'c' => some '<'
  | '3', 'D' => some '=' | '3', 'd' => some '='
  | '3', 'E' => some '>' | '3', 'e' => some '>'
  | '4', '0' => some '@'
  | '5', 'D' => some ']' | '5', 'd' => some ']'
  | '5', 'F' => some '_' | '5', 'f' => some '_'
  | '6', '0' => some (Char.ofNat 96)
  | '7', 'B' => some (Char.ofNat 123) | '7', 'b' => some (Char.ofNat 123)
  | '7', 'C' => some (Char.ofNat 124) | '7', 'c' => some (Char.ofNat 124)
  | '7', 'D' => some (Char.ofNat 125) | '7', 'd' => some (Char.ofNat 125)
  | '2', '0' => some ' '
  | '3', 'A' => some ':' | '3', 'a' => some ':'
  | '3', 'F' => some '?' | '3', 'f' => some '?'
  | '5', 'B' => some '[' | '5', 'b' => some '['
  | '5', 'C' => some (Char.ofNat 92) | '5', 'c' => some (Char.ofNat 92)
  | '5', 'E' => some '^' | '5', 'e' => some '^'
  | '7', 'E' => some '~' | '7', 'e' => some '~'
  | _, _ => none

/-- The percent-decoding loop of the git-source branch: repeatedly copy
text up to the next `%`, decode the two following characters via the
table (too-short or unknown encodings are fatal), and continue.  The
fuel argument bounds the recursion; `s.length` always suffices. -/
def decodeLoop : Nat → Str → Option Str
  | 0, _ => none
  | fuel + 1, s =>
    match strFindChar s '%' with
    | none => some s
    | some pi =>
      let front := s.take pi
      match s.drop (pi + 1) with
      | c1 :: c2 :: rest =>
        match decTable c1 c2 with
        | some c => (decodeLoop fuel rest).map (fun d => front ++ c :: d)
        | none => none
      | _ => none

/-- Percent-decode a string (the decode loop with enough fuel). -/
def decodePercent (s : Str) : Option Str := decodeLoop s.length s

/-- `From<PackageId> for Kid`: locate the name/version/source
sub-slices in either the opaque format `"<name> <version> (<source>)"`
or the stable format `"<source>#[<name>@]<version>"`, percent-decoding
git source urls; `none` models the fatal parse failure. -/
def kidFrom (repr0 : Str) : Option Kid :=
  if strContainsChar repr0 ' ' then do
    let ne ← strFindChar repr0 ' '
    let vrel ← strFindChar (repr0.drop (ne + 1)) ' '
    let ve := vrel + ne + 1
    let se := (strRfindChar repr0 '#').getD (repr0.length - 1)
    some ⟨repr0, (0, ne), (ne + 1, ve), (ve + 2, se)⟩
  else do
    let vmn ← strRfindChar repr0 '#'
    match strFindChar (repr0.drop vmn) '@' with
    | some split =>
      some ⟨repr0, (vmn + 1, vmn + split), (vmn + split + 1, repr0.length), (0, vmn)⟩
    | none => do
      let sl ← strRfindChar repr0 '/'
      let b := sl + 1
      if strStarts repr0 (str "git+") then
        let e := (strRfindChar (repr0.drop b) '?').elim vmn (fun q => q + b)
        if strContainsChar (repr0.drop e) '%' then do
          let decoded ← decodePercent (repr0.drop e)
          let before := repr0.length - e
          let repr1 := repr0.take e ++ decoded
          let vmn1 := vmn - (before - decoded.length)
          some ⟨repr1, (b, e), (vmn1 + 1, repr1.length), (0, vmn1)⟩
        else
          some ⟨repr0, (b, e), (vmn + 1, repr0.length), (0, vmn)⟩
      else
        some ⟨repr0, (b, vmn), (vmn + 1, repr0.length), (0, vmn)⟩

/-- Rust byte-wise string comparison (= character comparison for the
ASCII strings of interest). -/
def strCmp : Str → Str → Ordering
  | [], [] => .eq
  | [], _ :: _ => .lt
  | _ :: _, [] => .gt
  | a :: as', b :: bs' =>
    match compare a.toNat b.toNat with
    | .eq => strCmp as' bs'
    | o => o

/-- `impl Ord for Kid`: compare the name, version and source sub-slices
in order; the raw representation is not compared. -/
def Kid.cmp (a b : Kid) : Ordering :=
  ((strCmp a.name b.name).then (strCmp a.version b.version)).then
    (strCmp a.source b.source)

/-- `impl PartialEq for Kid`: `cmp == Equal`. -/
def kidBeq (a b : Kid) : Bool := Kid.cmp a b == .eq

/-- `impl Hash for Kid` writes the raw identifier bytes to the hasher;
this is the byte string the hash depends on. -/
def Kid.hashInput (k : Kid) : Str := k.repr

/-- `strCmp` is reflexive. -/
theorem strCmp_self (s : Str) : strCmp s s = .eq := by
  induction s with
  | nil => rfl
  | cons c rest ih =>
    simp [strCmp, Nat.compare_eq_eq.mpr rfl, ih]

/-- Equal component sub-slices give `Ordering.eq`. -/
theorem Kid.cmp_eq_of_components (a b : Kid)
    (hn : a.name = b.name) (hv : a.version = b.version)
    (hs : a.source = b.source) : Kid.cmp a b = .eq := by
  unfold Kid.cmp
  rw [hn, hv, hs, strCmp_self, strCmp_self, strCmp_self]
  rfl

/-! ## Ordering facts about `strCmp` and `Kid.cmp` -/

theorem charToNat_inj {c d : Char} (h : c.toNat = d.toNat) : c = d := by
  apply Char.ext; exact UInt32.ext h

theorem strCmp_eq_iff {a b : Str} : strCmp a b = .eq ↔ a = b := by
  induction a generalizing b with
  | nil => cases b <;> simp [strCmp]
  | cons c rest ih =>
    cases b with
    | nil => simp [strCmp]
    | cons d bs =>
      simp only [strCmp]
      rcases h : compare c.toNat d.toNat with _ | _ | _
      · simp only [List.cons.injEq]
        have : c ≠ d := fun he => by
          subst he; rw [Nat.compare_eq_eq.mpr rfl] at h; cases h
        simp [this]
      · have hcd : c = d := charToNat_inj (Nat.compare_eq_eq.mp h)
        simpa [hcd] using ih
      · simp only [List.cons.injEq]
        have : c ≠ d := fun he => by
          subst he; rw [Nat.compare_eq_eq.mpr rfl] at h; cases h
        simp [this]

theorem strCmp_swap (a b : Str) : (strCmp a b).swap = strCmp b a := by
  induction a generalizing b with
  | nil => cases b <;> rfl
  | cons c rest ih =>
    cases b with
    | nil => rfl
    | cons d bs =>
      simp only [strCmp]
      rcases h : compare c.toNat d.toNat with _ | _ | _ <;>
        rcases h' : compare d.toNat c.toNat with _ | _ | _ <;>
          simp_all [Nat.compare_eq_lt, Nat.compare_eq_eq, Nat.compare_eq_gt,
            Ordering.swap] <;> omega

theorem strCmp_lt_trans {a b c : Str} (h1 : strCmp a b = .lt)
    (h2 : strCmp b c = .lt) : strCmp a c = .lt := by
  induction a generalizing b c with
  | nil =>
    cases b with
    | nil => simpa using h2
    | cons d bs => cases c with
      | nil => simp [strCmp] at h2
      | cons e cs => rfl
  | cons x xs ih =>
    cases b with
    | nil => simp [strCmp] at h1
    | cons y ys =>
      cases c with
      | nil => simp [strCmp] at h2
      | cons z zs =>
        simp only [strCmp] at h1 h2 ⊢
        rcases hxy : compare x.toNat y.toNat with _ | _ | _ <;>
            rw [hxy] at h1 <;>
            rcases hyz : compare y.toNat z.toNat with _ | _ | _ <;>
            rw [hyz] at h2
        · rw [Nat.compare_eq_lt.mpr
            (Nat.lt_trans (Nat.compare_eq_lt.mp hxy) (Nat.compare_eq_lt.mp hyz))]
        · rw [Nat.compare_eq_eq.mp hyz] at hxy
          rw [hxy]
        · cases h2
        · rw [Nat.compare_eq_eq.mp hxy] at *
          rw [hyz]
        · rw [Nat.compare_eq_eq.mp hxy, hyz]
          exact ih h1 h2
        · cases h2
        · cases h1
        · cases h1
        · cases h1

theorem Ordering.swap_then (o p : Ordering) :
    (o.then p).swap = o.swap.then p.swap := by
  cases o <;> rfl

theorem then_eq_eq_iff {o p : Ordering} :
    o.then p = .eq ↔ o = .eq ∧ p = .eq := by
  cases o <;> simp [Ordering.then]

theorem kidCmp_eq_iff {a b : Kid} : Kid.cmp a b = .eq ↔
    a.name = b.name ∧ a.version = b.version ∧ a.source = b.source := by
  unfold Kid.cmp
  rw [then_eq_eq_iff, then_eq_eq_iff, strCmp_eq_iff, strCmp_eq_iff, strCmp_eq_iff]
  tauto

theorem kidCmp_swap (a b : Kid) : (Kid.cmp a b).swap = Kid.cmp b a := by
  unfold Kid.cmp
  rw [Ordering.swap_then, Ordering.swap_then, strCmp_swap, strCmp_swap, strCmp_swap]

theorem kidCmp_lt_iff {a b : Kid} : Kid.cmp a b = .lt ↔
    strCmp a.name b.name = .lt ∨
      (a.name = b.name ∧ (strCmp a.version b.version = .lt ∨
        (a.version = b.version ∧ strCmp a.source b.source = .lt))) := by
  unfold Kid.cmp
  rcases hn : strCmp a.name b.name with _ | _ | _ <;>
    rcases hv : strCmp a.version b.version with _ | _ | _ <;>
      simp_all [Ordering.then, strCmp_eq_iff] <;>
        simp [← strCmp_eq_iff, hn, hv]

theorem kidCmp_eq_symm {a b : Kid} (h : Kid.cmp a b = .eq) :
    Kid.cmp b a = .eq := by
  have := kidCmp_swap a b
  rw [h] at this
  exact this.symm

theorem kidCmp_eq_trans {a b c : Kid} (h1 : Kid.cmp a b = .eq)
    (h2 : Kid.cmp b c = .eq) : Kid.cmp a c = .eq := by
  rw [kidCmp_eq_iff] at *
  obtain ⟨n1, v1, s1⟩ := h1
  obtain ⟨n2, v2, s2⟩ := h2
  exact ⟨n1.trans n2, v1.trans v2, s1.trans s2⟩

theorem kidCmp_lt_trans {a b c : Kid} (h1 : Kid.cmp a b = .lt)
    (h2 : Kid.cmp b c = .lt) : Kid.cmp a c = .lt := by
  rw [kidCmp_lt_iff] at *
  rcases h1 with h1 | ⟨he1, h1⟩
  · rcases h2 with h2 | ⟨he2, _⟩
    · exact Or.inl (strCmp_lt_trans h1 h2)
    · rw [he2] at h1
      exact Or.inl h1
  · rcases h2 with h2 | ⟨he2, h2⟩
    · rw [he1]
      exact Or.inl h2
    · refine Or.inr ⟨he1.trans he2, ?_⟩
      rcases h1 with h1 | ⟨hv1, h1⟩
      · rcases h2 with h2 | ⟨hv2, _⟩
        · exact Or.inl (strCmp_lt_trans h1 h2)
        · rw [hv2] at h1
          exact Or.inl h1
      · rcases h2 with h2 | ⟨hv2, h2⟩
        · rw [hv1]
          exact Or.inl h2
        · exact Or.inr ⟨hv1.trans hv2, strCmp_lt_trans h1 h2⟩

theorem kidCmp_self (a : Kid) : Kid.cmp a a = .eq :=
  kidCmp_eq_iff.mpr ⟨rfl, rfl, rfl⟩

/-- `¬ gt` (the order used when sorting by `Kid::cmp`) is total. -/
theorem kidCmp_le_total (a b : Kid) :
    Kid.cmp a b ≠ .gt ∨ Kid.cmp b a ≠ .gt := by
  rcases h : Kid.cmp a b with _ | _ | _
  · exact Or.inl (by simp)
  · exact Or.inl (by simp)
  · have := kidCmp_swap a b
    rw [h] at this
    exact Or.inr (by rw [← this]; simp [Ordering.swap])

/-- `¬ gt` is transitive. -/
theorem kidCmp_le_trans {a b c : Kid} (h1 : Kid.cmp a b ≠ .gt)
    (h2 : Kid.cmp b c ≠ .gt) : Kid.cmp a c ≠ .gt := by
  rcases hab : Kid.cmp a b with _ | _ | _ <;> rcases hbc : Kid.cmp b c with _ | _ | _
  · rw [kidCmp_lt_trans hab hbc]; simp
  · have := kidCmp_eq_iff.mp hbc
    have hac : Kid.cmp a c = .lt := by
      rw [kidCmp_lt_iff] at hab ⊢
      rw [← this.1, ← this.2.1, ← this.2.2]
      exact hab
    rw [hac]; simp
  · exact absurd hbc h2
  · have := kidCmp_eq_iff.mp hab
    have hac : Kid.cmp a c = .lt := by
      rw [kidCmp_lt_iff] at hbc ⊢
      rw [this.1, this.2.1, this.2.2]
      exact hbc
    rw [hac]; simp
  · rw [kidCmp_eq_trans hab hbc]; simp
  · exact absurd hbc h2
  · exact absurd hab h1
  · exact absurd hab h1
  · exact absurd hab h1

/-! ## Sorted collections keyed by `Kid`

The source keeps `BTreeMap`/`BTreeSet` collections keyed by `Kid`
(ordered by `Kid::cmp`) and sorted `Vec`s searched with
`binary_search_by`.  Maps are modelled as association lists kept in
ascending key order (so that iteration order matches `BTreeMap`
iteration order); `binary_search_by` over a sorted vector is modelled
by its contract, first-match search. -/

/-- `BTreeMap<&Kid, α>`; entries in ascending `Kid.cmp` order. -/
abbrev KMap (α : Type) := List (Kid × α)

/-- `BTreeMap::get`. -/
def kmGet {α} (m : KMap α) (k : Kid) : Option α :=
  (m.find? (fun e => kidBeq e.1 k)).map (·.2)

/-- `BTreeMap::insert` (replacing an existing entry), keeping order. -/
def kmSet {α} : KMap α → Kid → α → KMap α
  | [], k, v => [(k, v)]
  | e :: rest, k, v =>
    match Kid.cmp k e.1 with
    | .lt => (k, v) :: e :: rest
    | .eq => (k, v) :: rest
    | .gt => e :: kmSet rest k v

/-- `BTreeMap::remove`, returning the removed value. -/
def kmRemove {α} : KMap α → Kid → Option α × KMap α
  | [], _ => (none, [])
  | e :: rest, k =>
    if kidBeq e.1 k then (some e.2, rest)
    else
      let (o, r) := kmRemove rest k
      (o, e :: r)

/-- `BTreeMap::contains_key`. -/
def kmContains {α} (m : KMap α) (k : Kid) : Bool :=
  (kmGet m k).isSome

/-- `BTreeSet<usize>`, ascending. -/
abbrev NatSet := List Nat

/-- `BTreeSet::insert`; also reports whether the value was new. -/
def nsInsert : NatSet → Nat → Bool × NatSet
  | [], n => (true, [n])
  | x :: rest, n =>
    if n < x then (true, n :: x :: rest)
    else if n = x then (false, x :: rest)
    else
      let (b, r) := nsInsert rest n
      (b, x :: r)

/-- `BTreeSet<String>` (the `EnabledFeatures` set), ascending. -/
abbrev StrSet := List Str

/-- `BTreeSet::insert` for feature-name sets. -/
def ssInsert : StrSet → Str → StrSet
  | [], s => [s]
  | x :: rest, s =>
    match strCmp s x with
    | .lt => s :: x :: rest
    | .eq => x :: rest
    | .gt => x :: ssInsert rest s

/-- `BTreeSet::contains` for feature-name sets. -/
def ssContains (l : StrSet) (s : Str) : Bool := l.contains s

/-- `Vec::sort_by` with a `Kid`-valued key, modelled by insertion
sort on the `¬ gt` order. -/
def sortByKid {α} (key : α → Kid) (l : List α) : List α :=
  l.insertionSort (fun a b => Kid.cmp (key a) (key b) ≠ .gt)

/-- `Vec::sort` on strings. -/
def sortStrs (l : List Str) : List Str :=
  l.insertionSort (fun a b => strCmp a b ≠ .gt)

/-! ## Semver model

The `semver` crate is an external collaborator of this repository.  A
`Version` is its record of numeric components plus pre-release and
build-metadata strings (structural equality, as derived by `semver`).
Requirement matching is modelled by its documented interface: a
requirement is a list of comparators that must all match; comparator
predicates themselves are opaque. -/

/-- Modelled from the spec: a resolved semantic version (the `semver`
crate is outside this repository).  Equality is structural, as derived
for `semver::Version`. -/
structure Version where
  major : Nat
  minor : Nat
  patch : Nat
  pre : Str
  build : Str
  deriving DecidableEq, Repr

/-- Modelled from the spec: a version requirement of the `semver`
crate: a list of comparators, all of which must match.  Individual
comparators are opaque predicates. -/
structure VersionReq where
  comparators : List (Version → Bool)

/-- `semver::VersionReq::matches`: every comparator matches. -/
def VersionReq.vmatches (req : VersionReq) (v : Version) : Bool :=
  req.comparators.all (fun c => c v)

/-- Consume one or more ASCII digits from the front of a string,
returning the parsed number and the rest. -/
def takeNat (s : Str) : Option (Nat × Str) :=
  let digits := s.takeWhile Char.isDigit
  if digits.isEmpty then none
  else some (digits.foldl (fun n c => n * 10 + (c.toNat - 48)) 0, s.drop digits.length)

/-- Modelled from the spec: `semver::Version::parse` restricted to the
`major.minor.patch[-pre][+build]` shape (the `semver` crate is outside
this repository). -/
def versionParse (s : Str) : Option Version := do
  let (major, s) ← takeNat s
  let s ← match s with | '.' :: r => some r | _ => none
  let (minor, s) ← takeNat s
  let s ← match s with | '.' :: r => some r | _ => none
  let (patch, s) ← takeNat s
  match s with
  | [] => some ⟨major, minor, patch, [], []⟩
  | '+' :: b => some ⟨major, minor, patch, [], b⟩
  | '-' :: r =>
    let pre := r.takeWhile (· ≠ '+')
    let rest := r.drop pre.length
    match rest with
    | [] => some ⟨major, minor, patch, pre, []⟩
    | _ :: b => some ⟨major, minor, patch, pre, b⟩
  | _ => none

/-! ## Data model of the raw metadata report (`cm` module)

Only the fields the builder consults are represented.  The
`cargo_platform::Platform` attached to a dependency is either a bare
target triple or a `cfg()` expression; the builder turns it into a
string and re-parses it with the external `cfg-expr` crate, a round
trip represented here by storing the platform in parsed form directly
(`Platform.cfg none` standing for a `cfg()` string the external parser
rejects). -/

/-- Modelled from the spec: a predicate of the conditional-compilation
expression language (`cfg-expr` is outside this repository); its
identity is opaque, evaluation against a target is a caller-supplied
function. -/
abbrev CfgPred := Str

/-- Modelled from the spec: a conditional-compilation boolean
expression over opaque predicates (`cfg-expr` is outside this
repository). -/
inductive CfgExpr where
  | pred (p : CfgPred)
  | all (xs : List CfgExpr)
  | any (xs : List CfgExpr)
  | not (x : CfgExpr)

mutual

/-- Structural equality test on cfg expressions (the derived
`PartialEq`). -/
def CfgExpr.beq : CfgExpr → CfgExpr → Bool
  | .pred a, .pred b => a == b
  | .all a, .all b => CfgExpr.beqList a b
  | .any a, .any b => CfgExpr.beqList a b
  | .not a, .not b => a.beq b
  | _, _ => false

def CfgExpr.beqList : List CfgExpr → List CfgExpr → Bool
  | [], [] => true
  | a :: as', b :: bs' => a.beq b && CfgExpr.beqList as' bs'
  | _, _ => false

end

mutual

/-- `cfg_expr::Expression` evaluation under a predicate valuation. -/
def CfgExpr.eval (f : CfgPred → Bool) : CfgExpr → Bool
  | .pred p => f p
  | .all xs => CfgExpr.evalAll f xs
  | .any xs => CfgExpr.evalAny f xs
  | .not x => !(x.eval f)

def CfgExpr.evalAll (f : CfgPred → Bool) : List CfgExpr → Bool
  | [] => true
  | x :: xs => x.eval f && CfgExpr.evalAll f xs

def CfgExpr.evalAny (f : CfgPred → Bool) : List CfgExpr → Bool
  | [] => false
  | x :: xs => x.eval f || CfgExpr.evalAny f xs

end

mutual

/-- The predicates occurring in an expression, as counted by
`Expression::predicates`. -/
def CfgExpr.preds : CfgExpr → List CfgPred
  | .pred p => [p]
  | .all xs => CfgExpr.predsList xs
  | .any xs => CfgExpr.predsList xs
  | .not x => x.preds

def CfgExpr.predsList : List CfgExpr → List CfgPred
  | [] => []
  | x :: xs => x.preds ++ CfgExpr.predsList xs

end

/-- A dependency's target platform: a bare triple, or a `cfg()`
expression (`none` when the external `cfg-expr` parser rejects the
expression string). -/
inductive Platform where
  | name (triple : Str)
  | cfg (expr : Option CfgExpr)

/-- Structural equality test on platforms (the derived `PartialEq`
used when comparing a resolved dep-kind's target with a declared
dependency's target). -/
def Platform.beq : Platform → Platform → Bool
  | .name a, .name b => a == b
  | .cfg none, .cfg none => true
  | .cfg (some a), .cfg (some b) => a.beq b
  | _, _ => false

/-- `Option<Platform>` equality (derived `PartialEq`). -/
def optPlatformBeq : Option Platform → Option Platform → Bool
  | none, none => true
  | some a, some b => a.beq b
  | _, _ => false

/-- `cm::Dependency`: a declared dependency of a package (the fields
the builder reads). -/
structure Dependency where
  name : Str
  rename : Option Str
  kind : DepKind
  optional : Bool
  usesDefaultFeatures : Bool
  features : List Str
  target : Option Platform
  req : VersionReq
  source : Option Str

/-- `cm::Package`: a package record of the raw report (the fields the
builder and the exclusion matcher read).  `source` is the raw source
string (`Source.repr`), absent for path/workspace packages. -/
structure Package where
  name : Str
  version : Version
  manifestPath : Str
  source : Option Str
  dependencies : List Dependency
  features : List (Str × List Str)

/-- `BTreeMap::get` on the declared feature map. -/
def featuresGet (m : List (Str × List Str)) (k : Str) : Option (List Str) :=
  (m.find? (fun e => e.1 = k)).map (·.2)

/-! ## Exclusion specifications (`src/pkgspec.rs`) -/

/-- `PkgSpec`: a parsed package specification used for exclusion. -/
structure PkgSpec where
  name : Str
  version : Option Version
  url : Option Str

/-- `PkgSpec::matches`: name must match exactly; a given version must
equal the package's version; a given url is compared against the
package source after stripping the scheme prefix (through the first
`+`) and any trailing `?query`/`#fragment`; a package with no source
short-circuits to a match. -/
def PkgSpec.matches (spec : PkgSpec) (krate : Package) : Bool :=
  if spec.name ≠ krate.name then false
  else if spec.version.elim false (fun vers => vers ≠ krate.version) then false
  else
    match spec.url, krate.source with
    | some url, some src =>
      let b := (strFindChar src '+').elim 0 (· + 1)
      let e := ((strFindChar src '?').or (strFindChar src '#')).getD src.length
      url = (src.drop b).take (e - b)
    | _, _ => true

/-! ## Builder configuration (`src/builder.rs`) -/

/-- `Scope`: where a dependency-kind filter applies. -/
inductive Scope where
  | workspace
  | nonWorkspace
  | all

/-- A configured target filter.  The triple's textual form is kept for
`matches_triple`; predicate evaluation against the target (builtin
target matching and `target_feature` membership, `TargetFilter::eval`)
is external `cfg-expr` logic, modelled as an opaque boolean valuation
of predicates. -/
structure TargetFilter where
  tripleText : Str
  evalPred : CfgPred → Bool

/-- `TargetFilter::matches_triple`: textual comparison of the triple. -/
def TargetFilter.matchesTriple (tf : TargetFilter) (triple : Str) : Bool :=
  tf.tripleText = triple

/-- The builder's configuration surface.  The optional crates.io index
collaborator is not represented: this embedding models the
default (no index) configuration, in which `fix_features` is never
invoked. -/
structure Builder where
  targetFilters : List TargetFilter
  workspaceFilters : List Str
  exclude : List PkgSpec
  ignoreKinds : Nat
  workspace : Bool

/-- `Builder::new()`. -/
def Builder.new : Builder :=
  { targetFilters := [], workspaceFilters := [], exclude := [],
    ignoreKinds := 0, workspace := false }

/-- `Builder::ignore_kind`: record a kind/scope pair in the packed
bitset. -/
def Builder.ignoreKind (b : Builder) (kind : DepKind) (scope : Scope) : Builder :=
  let kindFlag : Nat :=
    match kind with
    | .normal => 0x1
    | .dev => 0x8
    | .build => 0x40
  let ik := b.ignoreKinds ||| kindFlag
  let ik := ik |||
    match scope with
    | .workspace => kindFlag <<< 1
    | .nonWorkspace => kindFlag <<< 2
    | .all => kindFlag <<< 1 ||| kindFlag <<< 2
  { b with ignoreKinds := ik }

/-! ## The raw metadata report (`cm::Metadata`) -/

/-- A dep-kind entry of a resolve-node dependency
(`builder.rs::DepKindInfo`): the kind plus the optional platform
condition.  The source stores the condition both as its display string
and as the parsed `cargo_platform::Platform`; the platform value
represents both here (the display string round-trips through the
external `cfg-expr` parser, represented by the parsed form). -/
structure DepKindInfo where
  kind : DepKind
  cfg : Option Platform

/-- A dependency of a resolve node, before identifier parsing. -/
structure RawNodeDep where
  name : Str
  pkg : Str
  depKinds : List DepKindInfo

/-- A resolve node as given in the raw report. -/
structure RawNode where
  id : Str
  deps : List RawNodeDep
  features : List Str

/-- `cm::Resolve`: the optional resolution graph. -/
structure Resolve where
  nodes : List RawNode
  root : Option Str

/-- `cm::Metadata`: the raw report. -/
structure Metadata where
  packages : List (Str × Package)
  workspaceMembers : List Str
  resolve : Option Resolve
  workspaceRoot : Str

/-- `builder.rs::NodeDep` after identifier parsing. -/
structure NodeDep where
  name : Str
  pkg : Kid
  depKinds : List DepKindInfo

/-- `builder.rs::Node` (a resolve node after parsing/sorting). -/
structure RNode where
  id : Kid
  deps : List NodeDep
  features : List Str
  hasDefaultFeature : Bool

/-- `Node::feature_index`: `binary_search_by` over the sorted feature
list (modelled as first-match search); a miss is an
`unreachable!` crash. -/
def RNode.featureIndex (n : RNode) (feat : Str) : Option Nat :=
  n.features.findIdx? (fun f => f = feat)

/-- `Node::feature`: index into the feature list (out of range is a
crash). -/
def RNode.feature (n : RNode) (index : Nat) : Option Str :=
  n.features.get? index

/-- `dep_names_match`: equality up to `-` in the declared name matching
`_` in the resolved name. -/
def depNamesMatch (krateDepName resolvedName : Str) : Bool :=
  if krateDepName.length ≠ resolvedName.length then false
  else (krateDepName.zip resolvedName).all
    (fun p => p.1 = p.2 || (p.1 = '-' && p.2 = '_'))

/-- The dependency lookup shared by `get_dep_id` and the feature
expansion: the first resolve-node dep whose resolved name matches the
declared name, or whose package name equals it. -/
def findNodeDep (deps : List NodeDep) (depName : Str) : Option NodeDep :=
  deps.find? (fun ndep =>
    depNamesMatch depName ndep.name || depName = ndep.pkg.name)

/-- `Path::parent` of std, restricted to plain slash-separated paths
(modelled from its documented behaviour; std is outside this
repository). -/
def pathParent (p : Str) : Option Str :=
  if p.isEmpty then none
  else
    match strRfindChar p '/' with
    | none => some []
    | some 0 => if p.length = 1 then none else some ['/']
    | some i => some (p.take i)

/-- `binary_search_by` for a `Kid` key over the sorted package list,
modelled as first-match search. -/
def pkgSearch (packages : List (Kid × Package)) (k : Kid) : Option Nat :=
  packages.findIdx? (fun p => kidBeq p.1 k)

/-- `workspace_members.binary_search(pid).is_ok()` over the sorted
member list. -/
def kidListContains (l : List Kid) (k : Kid) : Bool :=
  l.any (fun m => kidBeq m k)

/-- `nodes.binary_search_by(|n| n.id.cmp(pid))` over the sorted node
list, modelled as first-match search. -/
def nodeSearch (nodes : List RNode) (k : Kid) : Option Nat :=
  nodes.findIdx? (fun n => kidBeq n.id k)

/-- `get_rnode`: index lookup with `unwrap` (a miss is a crash). -/
def getRnode (nodes : List RNode) (pid : Kid) : Option RNode :=
  nodes.find? (fun n => kidBeq n.id pid)

/-- Fallible map over a list (a `collect::<Option<Vec<_>>>`-style
traversal, written structurally). -/
def mapOpt {α β} (f : α → Option β) : List α → Option (List β)
  | [] => some []
  | x :: xs => do
    let y ← f x
    let ys ← mapOpt f xs
    some (y :: ys)

/-- Parse and sort the package list (`md.packages` → sorted
`Vec<(Kid, Package)>`). -/
def parsePackages (l : List (Str × Package)) : Option (List (Kid × Package)) :=
  (mapOpt (fun p => (kidFrom p.1).map (fun k => (k, p.2))) l).map
    (sortByKid (·.1))

/-- Parse and sort the workspace members. -/
def parseMembers (l : List Str) : Option (List Kid) :=
  (mapOpt kidFrom l).map (sortByKid id)

/-- Build one `builder.rs::Node` from a raw resolve node: parse ids,
sort the deps by package id and the features lexicographically, and
record whether a `default` feature exists.  The constructor also
asserts (`unreachable!`) that the node's id is a known package. -/
def parseRNode (packages : List (Kid × Package)) (rn : RawNode) : Option RNode := do
  let id ← kidFrom rn.id
  if (pkgSearch packages id).isNone then none
  else
    let deps ← mapOpt (fun dn => do
      let pkg ← kidFrom dn.pkg
      some { name := dn.name, pkg, depKinds := dn.depKinds : NodeDep }) rn.deps
    let deps := sortByKid (·.pkg) deps
    let features := sortStrs rn.features
    let hasDefaultFeature := features.contains (str "default")
    some { id, deps, features, hasDefaultFeature }

/-- Parse and sort all resolve nodes. -/
def parseRNodes (packages : List (Kid × Package)) (l : List RawNode) :
    Option (List RNode) :=
  (mapOpt (parseRNode packages) l).map (sortByKid (·.id))

/-- `BTreeSet<&Kid>` insert (ascending, deduplicating). -/
def kidSetInsert : List Kid → Kid → List Kid
  | [], k => [k]
  | x :: rest, k =>
    match Kid.cmp k x with
    | .lt => k :: x :: rest
    | .eq => x :: rest
    | .gt => x :: kidSetInsert rest k

/-- Root selection: an explicit workspace-filter subset wins (unless it
names only the workspace manifest); else the single resolve root when
present and `workspace` was not forced; else all workspace members. -/
def computeRoots (b : Builder) (md : Metadata) (packages : List (Kid × Package))
    (workspaceMembers : List Kid) (root : Option Kid) : List Kid :=
  if b.workspaceFilters.isEmpty then
    let roots0 : List Kid :=
      if !b.workspace then
        match root with
        | some rkid => [rkid]
        | none => []
      else []
    if roots0.isEmpty then workspaceMembers.foldl kidSetInsert [] else roots0
  else
    if b.workspaceFilters.length = 1 &&
        (b.workspaceFilters.head?.elim false
          (fun wf => pathParent wf = some md.workspaceRoot)) then
      workspaceMembers.foldl kidSetInsert []
    else
      workspaceMembers.foldl
        (fun acc wm =>
          match packages.find? (fun p => kidBeq p.1 wm) with
          | some pkg =>
            if b.workspaceFilters.any (fun wf => wf = pkg.2.manifestPath) then
              kidSetInsert acc wm
            else acc
          | none => acc)
        []

/-! ## The worklist state (`build_with_metadata` internals) -/

/-- `builder.rs::DependencyEdge`: one surviving kind/condition variant
plus the feature indices it explicitly enables on the target. -/
structure DependencyEdge where
  kind : DepKind
  cfg : Option Platform
  features : List Nat

/-- `builder.rs::KrateDependency`. -/
structure KrateDependency where
  edges : List DependencyEdge
  features : NatSet

/-- `builder.rs::PackageNode`. -/
structure PackageNode where
  isRoot : Bool
  deps : KMap KrateDependency

/-- `builder.rs::FeatureEdgeName`. -/
inductive FeatureEdgeName where
  | feature (s : Str)
  | rename (s : Str)
  | krate

/-- `builder.rs::FeatureEdge`. -/
structure FeatureEdge where
  kid : Kid
  name : FeatureEdgeName

/-- `builder.rs::KrateFeatures`: the declared capability DAG, the
accumulated enabled set, the pending weak references and the
non-optional-pass marker. -/
structure KrateFeatures where
  graph : List (Str × List FeatureEdge)
  actual : NatSet
  pendingWeak : KMap NatSet
  filledNonOptional : Bool

/-- The `check` closure: has this `(package, capability)` work item
already been processed? -/
def check (map : KMap KrateFeatures) (pid : Kid) (feature : Option Nat) : Bool :=
  match kmGet map pid with
  | none => false
  | some pn =>
    match feature with
    | some feat => pn.actual.contains feat
    | none => pn.filledNonOptional

/-- The declared-capability graph computed by the
`feature_edge_map.entry(pid).or_insert_with` closure: for each resolved
feature of the node, classify its declared sub-entries, resolving
cross-package names through the resolve-node dependency list (entries
naming unknown deps are silently skipped) and keeping weak references
only when a feature named like the target crate also exists. -/
def buildKFGraph (pid : Kid) (rnode : RNode) (krate : Package) :
    List (Str × List FeatureEdge) :=
  rnode.features.filterMap (fun feat =>
    (featuresGet krate.features feat).map (fun subs =>
      (feat, subs.filterMap (fun subFeat =>
        match parseFeature subFeat with
        | .krate krateName =>
          (findNodeDep rnode.deps krateName).map (fun ndep =>
            { kid := ndep.pkg,
              name :=
                if ndep.pkg.name ≠ krateName then FeatureEdgeName.rename krateName
                else FeatureEdgeName.krate })
        | .simple s => some { kid := pid, name := .feature s }
        | .strong krateName feature =>
          (findNodeDep rnode.deps krateName).map (fun ndep =>
            { kid := ndep.pkg, name := .feature feature })
        | .weak krateName feature =>
          if rnode.features.contains krateName then
            (findNodeDep rnode.deps krateName).map (fun ndep =>
              { kid := ndep.pkg, name := .feature feature })
          else none))))

/-! ## The per-variant edge filter (the `filter_map` closure over
`rdep.dep_kinds`) -/

/-- The `Edge` record produced by the closure. -/
structure EdgeData where
  kind : DepKind
  cfg : Option Platform
  features : List Str
  usesDefaultFeatures : Bool

/-- The base predicate shared by the candidate count and the find: the
declared dependency matches the resolved dep-kind entry in kind,
(possibly renamed) name, version requirement and target condition. -/
def depMatchesBase (rdep : NodeDep) (rdepVersion : Version) (hasPre : Bool)
    (maybeRealName : Str) (dk : DepKindInfo) (dep : Dependency) : Bool :=
  if !(decide (dk.kind = dep.kind)) then false
  else
    let dname := dep.rename.getD dep.name
    if !(depNamesMatch dname rdep.name) && !(decide (maybeRealName = dname)) then false
    else if !((hasPre && dep.req.comparators.isEmpty) || dep.req.vmatches rdepVersion)
      then false
    else optPlatformBeq dk.cfg dep.target

/-- The source comparison used to disambiguate multiple candidate
declarations: compare the declared source with the resolved package's
source, stripping a trailing `#revision` from `git+` urls. -/
def depSourceMatches (rdep : NodeDep) (dep : Dependency) : Bool :=
  match dep.source with
  | none => true
  | some dsrc =>
    let psrc := rdep.pkg.source
    if strStarts dsrc (str "git+") && strStarts psrc (str "git+") then
      let dgit := dsrc.drop 4
      let pgit := psrc.drop 4
      let dgit := (strRfindChar dgit '#').elim dgit (fun e => dgit.take e)
      dgit = pgit
    else dsrc = psrc

/-- Locate the declared dependency matching a resolved dep-kind entry;
when several declarations match the base predicate, the source must
also match.  A miss is the `unwrap_or_else(panic!)` crash. -/
def findDepDecl (krate : Package) (rdep : NodeDep) (rdepVersion : Version)
    (hasPre : Bool) (maybeRealName : Str) (dk : DepKindInfo) :
    Option Dependency :=
  let base := depMatchesBase rdep rdepVersion hasPre maybeRealName dk
  let multipleCandidates :=
    (krate.dependencies.filter base).length > 1
  krate.dependencies.find?
    (fun dep => base dep && (!multipleCandidates || depSourceMatches rdep dep))

/-- The body of the `filter_map` over a resolved dependency's dep-kind
variants: `some none` is a filtered variant, `some (some e)` a
surviving edge, `none` a crash.  The kind mask is tested first, then
the declared dependency is located, optional dependencies without a
strong activation are dropped, and finally the platform condition is
evaluated: with configured targets the edge survives iff some target
matches; with no targets every condition survives except a `cfg()`
expression with zero predicates that evaluates false under the
all-true valuation. -/
def keepEdge (ignoreKinds : Nat) (includeAllTargets : Bool)
    (targets : List TargetFilter) (isInWorkspace : Bool) (krate : Package)
    (strong : Bool) (hasPre : Bool) (rdep : NodeDep) (rdepVersion : Version)
    (rdepHasDefault : Bool) (maybeRealName : Str) (dk : DepKindInfo) :
    Option (Option EdgeData) :=
  let mask : Nat :=
    match dk.kind with
    | .normal => 0x1
    | .dev => 0x8
    | .build => 0x40
  let mask := mask ||| (mask <<< (if isInWorkspace then 1 else 2))
  if mask &&& ignoreKinds = mask then some none
  else
    match findDepDecl krate rdep rdepVersion hasPre maybeRealName dk with
    | none => none
    | some dep =>
      if dep.optional && !strong then some none
      else
        let keep : Option Platform → Option (Option EdgeData) := fun cfg =>
          some (some
            { kind := dk.kind, cfg := cfg, features := dep.features,
              usesDefaultFeatures := dep.usesDefaultFeatures && rdepHasDefault })
        match dk.cfg with
        | some platform =>
          if !includeAllTargets then
            let matched :=
              match platform with
              | .cfg (some expr) => targets.any (fun t => expr.eval t.evalPred)
              | .cfg none => true
              | .name triple => targets.any (fun t => t.matchesTriple triple)
            if !matched then some none else keep (some platform)
          else
            match platform with
            | .cfg (some expr) =>
              if expr.preds.isEmpty && !(expr.eval (fun _ => true)) then some none
              else keep (some platform)
            | _ => keep (some platform)
        | none => keep none

/-! ## The worklist traversal -/

/-- The read-only context of the traversal: the parsed/sorted inputs
plus the filter configuration. -/
structure BuildCtx where
  packages : List (Kid × Package)
  nodes : List RNode
  workspaceMembers : List Kid
  roots : List Kid
  exclude : List PkgSpec
  targets : List TargetFilter
  includeAllTargets : Bool
  ignoreKinds : Nat

/-- The mutable state of the traversal. -/
structure BuildState where
  visitStack : List (Kid × Option Nat)
  depEdgeMap : KMap PackageNode
  featureEdgeMap : KMap KrateFeatures

/-- A work item: `(package, capability index or the non-optional
pass)`. -/
abbrev WorkItem := Kid × Option Nat

/-- The non-deferred path of a cross-package sub-reference: drain the
pending-weak set into the discovered-dependency entry and record the
requested capability index. -/
def processSubRef (rdepNode : RNode) (ndep : NodeDep) (featOpt : Option Str)
    (acc : KrateFeatures × KMap (NodeDep × Option NatSet) × List WorkItem) :
    Option (KrateFeatures × KMap (NodeDep × Option NatSet) × List WorkItem) := do
  let rem := kmRemove acc.1.pendingWeak ndep.pkg
  let kf := { acc.1 with pendingWeak := rem.2 }
  let deps ←
    match rem.1 with
    | none => some acc.2.1
    | some pend =>
      let cur := (kmGet acc.2.1 ndep.pkg).getD (ndep, some [])
      match cur.2 with
      | some s =>
        some (kmSet acc.2.1 ndep.pkg
          (cur.1, some (pend.foldl (fun t n => (nsInsert t n).2) s)))
      | none => none
  let cur := (kmGet deps ndep.pkg).getD (ndep, some [])
  match cur.2 with
  | none => none
  | some s =>
    match featOpt with
    | none => some (kf, kmSet deps ndep.pkg (cur.1, some s), acc.2.2)
    | some f => do
      let fi ← rdepNode.featureIndex f
      some (kf, kmSet deps ndep.pkg (cur.1, some (nsInsert s fi).2), acc.2.2)

/-- One declared sub-reference of the capability being processed
(the body of the `for sf in fs` loop): a local reference re-pushes the
same package; a cross-package reference resolves the dependency
(unknown names are skipped), defers weak references whose target is not
yet a dependency into the pending-weak map, drains the pending-weak set
when a non-weak reference reaches the same target, and records the
requested capability index.  Stack pushes are prepended (the stack's
head is its top). -/
def processSubFeature (nodes : List RNode) (rnode : RNode) (pid : Kid)
    (pnDeps : KMap KrateDependency)
    (acc : KrateFeatures × KMap (NodeDep × Option NatSet) × List WorkItem)
    (sf : Str) :
    Option (KrateFeatures × KMap (NodeDep × Option NatSet) × List WorkItem) := do
  match parseFeature sf with
  | .simple feat => do
    let idx ← rnode.featureIndex feat
    some (acc.1, acc.2.1, (pid, some idx) :: acc.2.2)
  | pf => do
    let krateName :=
      match pf with
      | .krate k => k
      | .strong k _ => k
      | .weak k _ => k
      | .simple s => s
    let featOpt :=
      match pf with
      | .krate _ => none
      | .strong _ f => some f
      | .weak _ f => some f
      | .simple _ => none
    match findNodeDep rnode.deps krateName with
    | none => some acc
    | some ndep => do
      let rdepNode ← getRnode nodes ndep.pkg
      let isWeak := match pf with | .weak _ _ => true | _ => false
      if isWeak && !kmContains pnDeps ndep.pkg then do
        let f ← featOpt
        let fi ← rdepNode.featureIndex f
        let pw := kmSet acc.1.pendingWeak ndep.pkg
          (nsInsert ((kmGet acc.1.pendingWeak ndep.pkg).getD []) fi).2
        some ({ acc.1 with pendingWeak := pw }, acc.2.1, acc.2.2)
      else processSubRef rdepNode ndep featOpt acc

/-- The capability branch of a work item (`Some(feature)`): mark the
capability enabled, schedule the non-optional pass when it has not run,
and expand the capability's declared sub-references; a capability
absent from the declared map is tolerated and expands to nothing. -/
def processFeatureRefs (nodes : List RNode) (rnode : RNode) (krate : Package)
    (pid : Kid) (pnDeps : KMap KrateDependency) (feature : Nat)
    (kf : KrateFeatures) (stack : List WorkItem) :
    Option (KrateFeatures × KMap (NodeDep × Option NatSet) × List WorkItem) := do
  if !(nsInsert kf.actual feature).1 then none
  else
    let kf2 := { kf with actual := (nsInsert kf.actual feature).2 }
    let stack2 :=
      if !kf2.filledNonOptional then (pid, none) :: stack else stack
    let featName ← rnode.feature feature
    match featuresGet krate.features featName with
    | none => some (kf2, [], stack2)
    | some fs =>
      fs.foldlM (processSubFeature nodes rnode pid pnDeps) (kf2, [], stack2)

/-- One edge of the discovered-dependency loop body: fold the surviving
kind/condition variants into the `KrateDependency`, pushing the target
package's work items (the plain activation once, then one per
explicitly enabled capability). -/
def processEdge (pkg : Kid) (rdepNode : RNode)
    (acc : KrateDependency × List WorkItem × Option WorkItem × Option NatSet)
    (edge : EdgeData) :
    Option (KrateDependency × List WorkItem × Option WorkItem × Option NatSet) := do
  let mid :=
    match acc.2.2.2 with
    | some fs =>
      let stack :=
        match acc.2.2.1 with | some it => it :: acc.2.1 | none => acc.2.1
      let ds := fs.foldl
        (fun (p : KrateDependency × List WorkItem) feat =>
          ({ p.1 with features := (nsInsert p.1.features feat).2 },
            (pkg, some feat) :: p.2))
        (acc.1, stack)
      (ds.1, ds.2, (none : Option WorkItem), (none : Option NatSet))
    | none => acc
  if !(mid.1.edges.any (fun d =>
      decide (d.kind = edge.kind) && optPlatformBeq d.cfg edge.cfg)) then do
    let stack :=
      match mid.2.2.1 with | some it => it :: mid.2.1 | none => mid.2.1
    let featNames := edge.features ++
      (if edge.usesDefaultFeatures then [str "default"] else [])
    let fs2 ← featNames.foldlM
      (fun (p : List Nat × List WorkItem) feat => do
        let fi ← rdepNode.featureIndex feat
        some (p.1 ++ [fi], (pkg, some fi) :: p.2))
      (([] : List Nat), stack)
    some ({ mid.1 with edges := mid.1.edges ++ [⟨edge.kind, edge.cfg, fs2.1⟩] },
      fs2.2, none, mid.2.2.2)
  else
    some (mid.1, mid.2.1, mid.2.2.1, mid.2.2.2)

/-- One entry of the discovered-dependency loop (`for (pkg, (rdep,
features)) in deps`): re-test every declared kind/condition variant
through the edge filter; a dependency with zero surviving variants
contributes nothing and is not pushed. -/
def processDepEntry (ctx : BuildCtx) (krate : Package) (isInWorkspace : Bool)
    (acc : PackageNode × List WorkItem)
    (entry : Kid × NodeDep × Option NatSet) :
    Option (PackageNode × List WorkItem) := do
  let rdepNode ← getRnode ctx.nodes entry.1
  let strong := entry.2.2.isSome
  let rdepVersion ← versionParse entry.2.1.pkg.version
  let hasPre := !rdepVersion.pre.isEmpty
  let edgeOpts ← mapOpt
    (keepEdge ctx.ignoreKinds ctx.includeAllTargets ctx.targets isInWorkspace
      krate strong hasPre entry.2.1 rdepVersion rdepNode.hasDefaultFeature
      entry.1.name)
    entry.2.1.depKinds
  let edges := edgeOpts.filterMap id
  if edges.isEmpty then some acc
  else do
    let dep0 := (kmGet acc.1.deps entry.1).getD ⟨[], []⟩
    let res ← edges.foldlM (processEdge entry.1 rdepNode)
      (dep0, acc.2, some ((entry.1, none) : WorkItem), entry.2.2)
    some ({ acc.1 with deps := kmSet acc.1.deps entry.1 res.1 }, res.2.1)

/-- The capability (`Some`) or non-optional (`None`) branch of a work
item, followed by the shared discovered-dependency loop; the final
state stores the updated per-package entries back into the two maps. -/
def processBranch (ctx : BuildCtx) (st : BuildState) (pid : Kid)
    (rnode : RNode) (krate : Package) (isInWorkspace : Bool)
    (kf : KrateFeatures) (pn : PackageNode) :
    Option Nat → Option BuildState
  | some feat => do
    let r1 ←
      processFeatureRefs ctx.nodes rnode krate pid pn.deps feat kf
        st.visitStack
    let r2 ← r1.2.1.foldlM
      (fun acc e => processDepEntry ctx krate isInWorkspace acc
        (e.1, e.2.1, e.2.2))
      (pn, r1.2.2)
    some { visitStack := r2.2,
           depEdgeMap := kmSet st.depEdgeMap pid r2.1,
           featureEdgeMap := kmSet st.featureEdgeMap pid r1.1 }
  | none => do
    let kf := { kf with filledNonOptional := true }
    let deps := rnode.deps.foldl
      (fun m ndep => kmSet m ndep.pkg (ndep, (none : Option NatSet))) []
    let r2 ← deps.foldlM
      (fun acc e => processDepEntry ctx krate isInWorkspace acc
        (e.1, e.2.1, e.2.2))
      (pn, st.visitStack)
    some { visitStack := r2.2,
           depEdgeMap := kmSet st.depEdgeMap pid r2.1,
           featureEdgeMap := kmSet st.featureEdgeMap pid kf }

/-- The body of the worklist loop for one popped `(package,
capability)` item: skip already-processed items and excluded packages,
materialize the package's capability-graph and dependency entries, run
the capability or non-optional branch, and re-test/attach the
discovered dependencies. -/
def processItem (ctx : BuildCtx) (st : BuildState) (pid : Kid)
    (feature : Option Nat) : Option BuildState := do
  if check st.featureEdgeMap pid feature then some st
  else do
    let isInWorkspace := kidListContains ctx.workspaceMembers pid
    let krateIndex ← nodeSearch ctx.nodes pid
    let rnode ← ctx.nodes.get? krateIndex
    let pkgEntry ← ctx.packages.get? krateIndex
    let krate := pkgEntry.2
    if ctx.exclude.any (fun exc => exc.matches krate) then some st
    else do
      let kf := (kmGet st.featureEdgeMap pid).getD
        { graph := buildKFGraph pid rnode krate, actual := [],
          pendingWeak := [], filledNonOptional := false }
      let pn := (kmGet st.depEdgeMap pid).getD
        { isRoot := kidListContains ctx.roots pid, deps := [] }
      processBranch ctx st pid rnode krate isInWorkspace kf pn feature

/-- The worklist loop: pop until empty (the fuel bounds the number of
iterations; the invariant guards make the real loop finite). -/
def buildLoop (ctx : BuildCtx) : Nat → BuildState → Option BuildState
  | 0, st => match st.visitStack with | [] => some st | _ => none
  | fuel + 1, st =>
    match st.visitStack with
    | [] => some st
    | (pid, feature) :: rest => do
      let st ← processItem ctx { st with visitStack := rest } pid feature
      buildLoop ctx fuel st

/-- Seed the stack: for every root, one non-optional item plus one
item per capability the raw report says is enabled for it (the root
node lookup is an `unwrap`). -/
def seedStack (nodes : List RNode) (roots : List Kid) :
    Option (List WorkItem) :=
  roots.foldlM
    (fun stack root => do
      let rnode ← getRnode nodes root
      let stack := (root, none) :: stack
      some ((List.range rnode.features.length).foldl
        (fun st feat => (root, some feat) :: st) stack))
    []

/-- `resolved.root.take().map(Kid::from)`. -/
def parseRoot : Option Str → Option (Option Kid)
  | none => some none
  | some r => (kidFrom r).map some

/-- Everything `build_with_metadata` does before the worklist loop:
parse and sort the packages, members and resolve nodes, take the
resolve root, select the roots, and seed the stack. -/
def buildSetup (b : Builder) (md : Metadata) (resolved : Resolve) :
    Option (BuildCtx × BuildState) := do
  let packages ← parsePackages md.packages
  let workspaceMembers ← parseMembers md.workspaceMembers
  let root ← parseRoot resolved.root
  let roots := computeRoots b md packages workspaceMembers root
  let nodes ← parseRNodes packages resolved.nodes
  let stack ← seedStack nodes roots
  some
    ({ packages, nodes, workspaceMembers, roots, exclude := b.exclude,
       targets := b.targetFilters,
       includeAllTargets := b.targetFilters.isEmpty,
       ignoreKinds := b.ignoreKinds },
     { visitStack := stack, depEdgeMap := [], featureEdgeMap := [] })

/-! ## The finished graph -/

/-- `crate::Node`: a package node (identifier, payload, enabled
capability set) or a capability node (owning package's node index plus
the capability name). -/
inductive GNode where
  | krate (id : Kid) (krate : Package) (features : StrSet)
  | feature (krateIndex : Nat) (name : Str)

/-- `crate::Edge`. -/
inductive GEdgeData where
  | dep (kind : DepKind) (cfg : Option Platform)
  | feature
  | depFeature (kind : DepKind) (cfg : Option Platform)

/-- A directed edge of the petgraph graph. -/
structure GEdge where
  src : Nat
  tgt : Nat
  data : GEdgeData

/-- The petgraph graph: nodes and edges in insertion order; node/edge
ids are list indices. -/
structure Graph where
  nodes : List GNode
  edges : List GEdge

/-- `Graph::add_node`. -/
def Graph.addNode (g : Graph) (n : GNode) : Graph × Nat :=
  ({ g with nodes := g.nodes ++ [n] }, g.nodes.length)

/-- `Graph::add_edge`. -/
def Graph.addEdge (g : Graph) (src tgt : Nat) (d : GEdgeData) : Graph :=
  { g with edges := g.edges ++ [⟨src, tgt, d⟩] }

/-- Replace the node at an index (the `&mut graph[kind]` mutation). -/
def Graph.setNode (g : Graph) (i : Nat) (n : GNode) : Graph :=
  { g with nodes := g.nodes.set i n }

/-- The published feature set of one materialized node: a root gets
the resolve node's reported list verbatim (collected into the ordered
set), a non-root the names of the accumulated `actual` indices. -/
def matFeatures (featureEdgeMap : KMap KrateFeatures) (id : Kid)
    (rnode : RNode) (pn : PackageNode) : Option StrSet :=
  if pn.isRoot then
    some (rnode.features.foldl ssInsert [])
  else do
    let kf ← kmGet featureEdgeMap id
    kf.actual.foldlM (fun s k => (rnode.feature k).map (ssInsert s)) []

/-- One package of the materialization pass: a package with a
surviving dependency-map entry becomes a node (in package order);
one without goes to the filter callback list instead. -/
def matStep (nodes : List RNode) (depEdgeMap : KMap PackageNode)
    (featureEdgeMap : KMap KrateFeatures) (acc : List GNode × List Package)
    (idkrate : Kid × Package) : Option (List GNode × List Package) :=
  match kmGet depEdgeMap idkrate.1 with
  | some pn => do
    let rnode ← getRnode nodes idkrate.1
    let features ← matFeatures featureEdgeMap idkrate.1 rnode pn
    some (acc.1 ++ [GNode.krate idkrate.1 idkrate.2 features], acc.2)
  | none => some (acc.1, acc.2 ++ [idkrate.2])

/-- The node-materialization pass: fold `matStep` over the sorted
package list. -/
def materializeNodes (nodes : List RNode) (depEdgeMap : KMap PackageNode)
    (featureEdgeMap : KMap KrateFeatures) (packages : List (Kid × Package)) :
    Option (List GNode × List Package) :=
  packages.foldlM (matStep nodes depEdgeMap featureEdgeMap) ([], [])

/-- The `get` closure: find a package node by identifier in the package
prefix, or a capability node by `(owner identifier, name)` past the
prefix. -/
def graphGet (g : Graph) (kratesEnd : Nat) (kid : Kid) (feature : Option Str) :
    Option Nat :=
  match feature with
  | some feat =>
    ((g.nodes.drop kratesEnd).findIdx? (fun n =>
      match n with
      | .feature ki name =>
        (match g.nodes.get? ki with
         | some (.krate id _ _) => kidBeq id kid && decide (name = feat)
         | _ => false)
      | _ => false)).map (· + kratesEnd)
  | none =>
    (g.nodes.take kratesEnd).findIdx? (fun n =>
      match n with
      | .krate id _ _ => kidBeq id kid
      | _ => false)

/-- The `attach` closure: find or create the capability node of the
target package and attach the given edge to it. -/
def attachFeatureEdge (g : Graph) (kratesEnd : Nat) (depId : Kid)
    (targetKrate srcid : Nat) (feat : Str) (edata : GEdgeData) : Graph :=
  match graphGet g kratesEnd depId (some feat) with
  | some featNode => g.addEdge srcid featNode edata
  | none =>
    let (g, featNode) := g.addNode (.feature targetKrate feat)
    g.addEdge srcid featNode edata

/-- One explicitly named capability of a dependency edge: resolve the
name and attach a feature-targeted edge. -/
def attachOneFeature (kratesEnd : Nat) (depId : Kid)
    (targetKrate srcid : Nat) (rnode : RNode) (edata : GEdgeData)
    (g : Graph) (fi : Nat) : Option Graph := do
  let featName ← rnode.feature fi
  some (attachFeatureEdge g kratesEnd depId targetKrate srcid featName edata)

/-- One kind/cfg variant of a dependency: a `DepFeature` edge per
explicitly enabled capability, or a plain `Dep` edge for a variant
enabling none. -/
def attachOneEdge (kratesEnd : Nat) (depId : Kid) (targetKrate srcid : Nat)
    (rnode : RNode) (g : Graph) (edge : DependencyEdge) : Option Graph := do
  let attachDirect := edge.features.isEmpty
  let g ← edge.features.foldlM
    (attachOneFeature kratesEnd depId targetKrate srcid rnode
      (.depFeature edge.kind edge.cfg))
    g
  if attachDirect then
    some (g.addEdge srcid targetKrate (.dep edge.kind edge.cfg))
  else some g

/-- Attach the crate→dependency edges of one surviving dependency: one
`DepFeature` edge per explicitly enabled capability (or a plain `Dep`
edge for a variant enabling none), then one `Feature` edge per
capability toggled through a parent capability. -/
def attachDepEdges (nodes : List RNode) (kratesEnd : Nat) (srcid : Nat)
    (g : Graph) (entry : Kid × KrateDependency) : Option Graph := do
  match graphGet g kratesEnd entry.1 none with
  | none => some g
  | some targetKrate => do
    let rnode ← getRnode nodes entry.1
    let g ← entry.2.edges.foldlM
      (attachOneEdge kratesEnd entry.1 targetKrate srcid rnode) g
    entry.2.features.foldlM
      (attachOneFeature kratesEnd entry.1 targetKrate srcid rnode .feature) g

/-- One source node of the crate-edges pass: remove its dependency-map
entry and attach the edges of every surviving dependency. -/
def crateEdgesStep (nodes : List RNode) (kratesEnd : Nat)
    (st : Graph × KMap PackageNode) (srcind : Nat) :
    Option (Graph × KMap PackageNode) :=
  match st.1.nodes.get? srcind with
  | some (.krate pid _ _) =>
    let rem := kmRemove st.2 pid
    match rem.1 with
    | none => some (st.1, rem.2)
    | some pn => do
      let g ← pn.deps.foldlM (attachDepEdges nodes kratesEnd srcind) st.1
      some (g, rem.2)
  | _ => some (st.1, st.2)

/-- The crate-edges pass: for every package node (in node order),
remove its dependency-map entry and attach the edges of every surviving
dependency whose target crate is still in the graph. -/
def crateEdgesPhase (nodes : List RNode) (kratesEnd : Nat) (g0 : Graph)
    (dem : KMap PackageNode) : Option Graph :=
  ((List.range kratesEnd).foldlM (crateEdgesStep nodes kratesEnd)
    (g0, dem)).map Prod.fst

/-- `get_or_insert` of the wiring pass: the capability node for
`(kid, feature)`, created on demand (the owner lookup is an
`unwrap`). -/
def getOrInsertFeature (g : Graph) (kratesEnd : Nat) (kid : Kid)
    (feature : Str) : Option (Graph × Nat) :=
  match graphGet g kratesEnd kid (some feature) with
  | some nid => some (g, nid)
  | none => do
    let ki ← graphGet g kratesEnd kid none
    some (g.addNode (.feature ki feature))

/-- `Vec::swap_remove`. -/
def listSwapRemove {α} (l : List α) (i : Nat) : List α :=
  match l.getLast? with
  | none => l
  | some last => (l.set i last).dropLast

/-- The capability name a sub-reference targets: `None` stands for the
dependency crate itself. -/
def subFeatName : FeatureEdgeName → Option Str
  | .feature f => some f
  | .rename k => some k
  | .krate => none

/-- Creation of a missing capability node during wiring: append the
node, and if the owning crate (a package node at `kind`) does not yet
publish the name, extend its published set in place and push the name
for further wiring. -/
def wireNewSub (kind : Nat) (nm : Str) (acc : Graph × List Str) :
    Graph × List Str :=
  match (acc.1.addNode (.feature kind nm)).1.nodes.get? kind with
  | some (.krate id pk feats) =>
    if !ssContains feats nm then
      ((acc.1.addNode (.feature kind nm)).1.setNode kind
        (.krate id pk (ssInsert feats nm)), nm :: acc.2)
    else ((acc.1.addNode (.feature kind nm)).1, acc.2)
  | _ => ((acc.1.addNode (.feature kind nm)).1, acc.2)

/-- One sub-reference of the wiring pass: skip references to pruned
packages; attach an edge to the existing target node, or create the
missing capability node on demand, in which case the newly exposed
capability name is added to the crate's published set and pushed for
further wiring. -/
def wireSubFeature (kratesEnd : Nat) (pid : Kid) (kind srcId : Nat)
    (acc : Graph × List Str) (subFeat : FeatureEdge) : Graph × List Str :=
  if !kidBeq subFeat.kid pid &&
      (graphGet acc.1 kratesEnd subFeat.kid none).isNone
  then acc
  else
    match graphGet acc.1 kratesEnd subFeat.kid (subFeatName subFeat.name) with
    | some targetId => (acc.1.addEdge srcId targetId .feature, acc.2)
    | none =>
      ((wireNewSub kind ((subFeatName subFeat.name).getD subFeat.kid.name)
          acc).1.addEdge srcId
        (acc.1.addNode (.feature kind
          ((subFeatName subFeat.name).getD subFeat.kid.name))).2 .feature,
       (wireNewSub kind ((subFeatName subFeat.name).getD subFeat.kid.name)
          acc).2)

/-- The per-package wiring loop: pop enabled capability names, look
them up in the declared capability graph (`swap_remove` on a hit),
create the capability node, wire it to its crate and to each of its
sub-references, looping until no new capability is exposed. -/
def wireFeatures (g : Graph) (kratesEnd : Nat) (pid : Kid) (kind : Nat) :
    Nat → List (Str × List FeatureEdge) → List Str → Option Graph
  | 0, _, featureStack =>
    match featureStack with
    | [] => some g
    | _ => none
  | _ + 1, _, [] => some g
  | fuel + 1, enabled, feat :: rest =>
    match enabled.findIdx? (fun e => decide (e.1 = feat)) with
    | none => wireFeatures g kratesEnd pid kind fuel enabled rest
    | some i =>
      match enabled.get? i with
      | none => none
      | some entry => do
        let enabled := listSwapRemove enabled i
        let gs ← getOrInsertFeature g kratesEnd pid feat
        let g1 := gs.1.addEdge gs.2 kind .feature
        let acc := entry.2.foldl
          (wireSubFeature kratesEnd pid kind gs.2) (g1, rest)
        wireFeatures acc.1 kratesEnd pid kind fuel enabled acc.2

/-- One visited package of the wiring pass. -/
def wiringStep (fuel : Nat) (kratesEnd : Nat) (g : Graph)
    (entry : Kid × KrateFeatures) : Option Graph :=
  match graphGet g kratesEnd entry.1 none with
  | none => some g
  | some kind =>
    match g.nodes.get? kind with
    | some (.krate _ _ features) =>
      wireFeatures g kratesEnd entry.1 kind fuel entry.2.graph
        features.reverse
    | _ => some g

/-- The wiring pass over every visited package still in the graph
(initial stack: the crate's published capability set, popped from the
end). -/
def wiringPhase (fuel : Nat) (g0 : Graph) (kratesEnd : Nat)
    (fem : KMap KrateFeatures) : Option Graph :=
  fem.foldlM (wiringStep fuel kratesEnd) g0

/-- The error type of the builder (`errors.rs::Error`; the
index-feature variants are compiled out in the default
configuration). -/
inductive KError where
  | noResolveGraph
  | metadata
  | invalidPkgSpec
  | noRootKrates
  deriving DecidableEq, Repr

/-- `Krates`: the finished graph plus the workspace members and the
length of the package-node prefix. -/
structure Krates where
  graph : Graph
  workspaceMembers : List Kid
  workspaceRoot : Str
  kratesEnd : Nat

/-- `Krates::len`. -/
def Krates.len (k : Krates) : Nat := k.kratesEnd

/-- The post-worklist half of the builder: fail with `NoRootKrates` on
an empty dependency map, else materialize nodes, attach crate edges and
wire capabilities.  The second component of a success is the list of
packages reported to the filter callback. -/
def buildFinish (ctx : BuildCtx) (md : Metadata) (stF : BuildState)
    (fuel : Nat) : Option (Except KError (Krates × List Package)) := do
  if stF.depEdgeMap.isEmpty then some (.error .noRootKrates)
  else do
    let matRes ←
      materializeNodes ctx.nodes stF.depEdgeMap stF.featureEdgeMap ctx.packages
    let kratesEnd := matRes.1.length
    let g : Graph := { nodes := matRes.1, edges := [] }
    let g ← crateEdgesPhase ctx.nodes kratesEnd g stF.depEdgeMap
    let g ← wiringPhase fuel g kratesEnd stF.featureEdgeMap
    some (.ok
      ({ graph := g, workspaceMembers := ctx.workspaceMembers,
         workspaceRoot := md.workspaceRoot, kratesEnd },
       matRes.2))

/-- `Builder::build_with_metadata`: the one entry point.  `none` models
a crash (or fuel exhaustion of the two internally terminating loops);
`some (.error e)` a returned error; `some (.ok (k, filtered))` the
built graph plus the filtered-package callbacks. -/
def buildWithMetadata (b : Builder) (md : Metadata) (fuel : Nat) :
    Option (Except KError (Krates × List Package)) :=
  match md.resolve with
  | none => some (.error .noResolveGraph)
  | some resolved => do
    let (ctx, st0) ← buildSetup b md resolved
    let stF ← buildLoop ctx fuel st0
    buildFinish ctx md stF fuel

/-! ## Query facade (`src/lib.rs`) -/

/-- `Krates::nid_for_kid`: search the package-node prefix by
identifier (`binary_search_by` over the ordered prefix, modelled as
first-match search; the comparator treats a capability node in the
prefix as unreachable). -/
def Krates.nidForKid (k : Krates) (kid : Kid) : Option Nat :=
  (k.graph.nodes.take k.kratesEnd).findIdx? (fun n =>
    match n with
    | .krate id _ _ => kidBeq id kid
    | .feature _ _ => false)

/-- The package payloads of the node prefix (`Krates::krates`). -/
def Krates.kratesList (k : Krates) : List Package :=
  (k.graph.nodes.take k.kratesEnd).filterMap (fun n =>
    match n with
    | .krate _ krate _ => some krate
    | .feature _ _ => none)

/-- The package identifiers of the node prefix. -/
def Krates.krateIds (k : Krates) : List Kid :=
  (k.graph.nodes.take k.kratesEnd).filterMap (fun n =>
    match n with
    | .krate id _ _ => some id
    | .feature _ _ => none)

/-- `graph.edges_directed(nid, Outgoing)`: petgraph yields the
outgoing edges most-recently-added first. -/
def edgesDirected (g : Graph) (nid : Nat) : List GEdge :=
  (g.edges.filter (fun e => e.src = nid)).reverse

/-- One step of the `krates_filtered` walk: follow every outgoing edge
that is not of the filtered kind, collecting newly visited package
nodes.  (Edge targets are always valid indices in a built graph, so the
defensive `none` arm is never taken there.) -/
def kfStep (g : Graph) (filter : DepKind) (nid : Nat)
    (acc : List Nat × NatSet × KMap Package) : List Nat × NatSet × KMap Package :=
  (edgesDirected g nid).foldl
    (fun (st : List Nat × NatSet × KMap Package) e =>
      let (stack, visited, f) := st
      let skip :=
        match e.data with
        | .dep kind _ | .depFeature kind _ => decide (kind = filter)
        | .feature => false
      if skip then st
      else
        match g.nodes.get? e.tgt with
        | some (.krate id krate _) =>
          let (isNew, visited) := nsInsert visited e.tgt
          if isNew then (e.tgt :: stack, visited, kmSet f id krate)
          else (stack, visited, f)
        | some (.feature _ _) =>
          let (isNew, visited) := nsInsert visited e.tgt
          if isNew then (e.tgt :: stack, visited, f)
          else (stack, visited, f)
        | none => st)
    acc

/-- The `krates_filtered` worklist. -/
def kfLoop (g : Graph) (filter : DepKind) :
    Nat → List Nat → NatSet → KMap Package → Option (KMap Package)
  | 0, stack, _, f => match stack with | [] => some f | _ => none
  | _ + 1, [], _, f => some f
  | fuel + 1, nid :: rest, visited, f =>
    let (stack, visited, f) := kfStep g filter nid (rest, visited, f)
    kfLoop g filter fuel stack ((nsInsert visited nid).2) f

/-- `Krates::krates_filtered`: seed with every workspace member present
in the graph, then re-walk reachability skipping edges of the given
kind, returning the collected packages in identifier order. -/
def Krates.kratesFiltered (k : Krates) (fuel : Nat) (filter : DepKind) :
    Option (List Package) :=
  let g := k.graph
  let init : KMap Package := k.workspaceMembers.foldl
    (fun m pid =>
      match k.nidForKid pid with
      | some nid =>
        match g.nodes.get? nid with
        | some (.krate id krate _) => kmSet m id krate
        | _ => m
      | none => m)
    []
  let stack := (k.workspaceMembers.filterMap k.nidForKid).reverse
  (kfLoop g filter fuel stack [] init).map (fun f => f.map (·.2))

/-! ## Definitions supporting the claim theorems -/

/-- The opaque-format raw string of the `fuser` test package. -/
def fuserOpaque : Str :=
  str "fuser 0.4.1 (git+https://github.com/cberner/fuser?branch=master#b2e7622942e52a28ffa85cdaf48e28e982bb6923)"

/-- The stable-format raw string of the same package. -/
def fuserStable : Str :=
  str "git+https://github.com/cberner/fuser?branch=master#0.4.1"

/-- A metadata input whose resolve graph names a package that is not
in the package list — the builder's node-construction contract
(`unreachable!`) rejects it. -/
def mdContractViolation : Metadata :=
  { packages := [], workspaceMembers := [],
    resolve := some
      { nodes := [{ id := str "reg#a@0.1.0", deps := [], features := [] }],
        root := none },
    workspaceRoot := str "/ws" }

/-- The package names of the filtered view (§4.5) of a built graph. -/
def filteredViewNames (b : Builder) (md : Metadata) (fuel : Nat)
    (kind : DepKind) : Option (List Str) :=
  match buildWithMetadata b md fuel with
  | some (.ok (kr, _)) =>
    (kr.kratesFiltered fuel kind).map (fun l => l.map Package.name)
  | _ => none

/-- The package names of a built graph. -/
def builtNames (b : Builder) (md : Metadata) (fuel : Nat) :
    Option (List Str) :=
  match buildWithMetadata b md fuel with
  | some (.ok (kr, _)) => some (kr.kratesList.map Package.name)
  | _ => none

/-- A two-member workspace in which member `b` is reachable only
through a dev-dependency of the single root `a`. -/
def mdKindFilter : Metadata :=
  { packages :=
      [(str "reg#a@0.1.0",
        { name := str "a", version := ⟨0, 1, 0, [], []⟩,
          manifestPath := str "/ws/a/Cargo.toml", source := none,
          dependencies :=
            [{ name := str "b", rename := none, kind := .dev,
               optional := false, usesDefaultFeatures := false,
               features := [], target := none, req := ⟨[]⟩, source := none }],
          features := [] }),
       (str "reg#b@0.1.0",
        { name := str "b", version := ⟨0, 1, 0, [], []⟩,
          manifestPath := str "/ws/b/Cargo.toml", source := none,
          dependencies := [], features := [] })],
    workspaceMembers := [str "reg#a@0.1.0", str "reg#b@0.1.0"],
    resolve := some
      { nodes :=
          [{ id := str "reg#a@0.1.0",
             deps := [{ name := str "b", pkg := str "reg#b@0.1.0",
                        depKinds := [⟨.dev, none⟩] }],
             features := [] },
           { id := str "reg#b@0.1.0", deps := [], features := [] }],
        root := some (str "reg#a@0.1.0") },
    workspaceRoot := str "/ws" }

/-- `Krates::get_enabled_features`. -/
def Krates.getEnabledFeatures (k : Krates) (kid : Kid) : Option StrSet :=
  (k.nidForKid kid).bind (fun nid =>
    match k.graph.nodes.get? nid with
    | some (.krate _ _ fs) => some fs
    | _ => none)

/-- The published feature set of one package of a built graph. -/
def builtFeaturesOf (b : Builder) (md : Metadata) (fuel : Nat)
    (kidRepr : Str) : Option StrSet :=
  match buildWithMetadata b md fuel, kidFrom kidRepr with
  | some (.ok (kr, _)), some kid => kr.getEnabledFeatures kid
  | _, _ => none

/-- The published set a materialized package node must carry: the
reported resolve list (as an ordered set) for a root, the accumulated
`actual` index set's names for a non-root. -/
def NodeFeatSpec (nodes : List RNode) (dem : KMap PackageNode)
    (fem : KMap KrateFeatures) (nd : GNode) : Prop :=
  ∀ id pk fs, nd = GNode.krate id pk fs →
    ∃ pn rnode, kmGet dem id = some pn ∧ getRnode nodes id = some rnode ∧
      ((pn.isRoot = true ∧ fs = rnode.features.foldl ssInsert []) ∨
       (pn.isRoot = false ∧ ∃ kf, kmGet fem id = some kf ∧
         kf.actual.foldlM (fun s k => (rnode.feature k).map (ssInsert s)) []
           = some fs))

/-- A workspace whose single root `a` declares `b = ["dep:b"]`-style
feature `b` (empty here), a feature `f = ["b?/g"]` weakly referencing
its non-optional dependency `b`, with resolve-reported features
`["b", "f"]`. -/
def mdWeakWiring : Metadata :=
  { packages :=
      [(str "reg#a@0.1.0",
        { name := str "a", version := ⟨0, 1, 0, [], []⟩,
          manifestPath := str "/ws/a/Cargo.toml", source := none,
          dependencies :=
            [{ name := str "b", rename := none, kind := .normal,
               optional := false, usesDefaultFeatures := false,
               features := [], target := none, req := ⟨[]⟩, source := none }],
          features := [(str "b", []), (str "f", [str "b?/g"])] }),
       (str "reg#b@0.1.0",
        { name := str "b", version := ⟨0, 1, 0, [], []⟩,
          manifestPath := str "/ws/b/Cargo.toml", source := none,
          dependencies := [], features := [(str "g", [])] })],
    workspaceMembers := [str "reg#a@0.1.0"],
    resolve := some
      { nodes :=
          [{ id := str "reg#a@0.1.0",
             deps := [{ name := str "b", pkg := str "reg#b@0.1.0",
                        depKinds := [⟨.normal, none⟩] }],
             features := [str "b", str "f"] },
           { id := str "reg#b@0.1.0", deps := [], features := [str "g"] }],
        root := some (str "reg#a@0.1.0") },
    workspaceRoot := str "/ws" }

/-- The identifier `reg#a@0.1.0` in parsed form. -/
def kidA : Kid := ⟨str "reg#a@0.1.0", (4, 5), (6, 11), (0, 3)⟩

/-- A one-feature resolve node for the C7 witness. -/
def rnodeA : RNode :=
  { id := kidA, deps := [], features := [str "b", str "f"],
    hasDefaultFeature := false }

/-- A root dependency-map entry for the C7 witness. -/
def pnRootA : PackageNode := { isRoot := true, deps := [] }

/-- A stub package record for the C7 witness. -/
def pkgStubA : Package :=
  { name := str "a", version := ⟨0, 1, 0, [], []⟩,
    manifestPath := str "/ws/a/Cargo.toml", source := none,
    dependencies := [], features := [] }

/-- The identifier of a package node. -/
def gnodeId? : GNode → Option Kid
  | .krate id _ _ => some id
  | .feature _ _ => none

/-- Is this a capability node? -/
def GNode.isFeatureNode : GNode → Bool
  | .krate _ _ _ => false
  | .feature _ _ => true

/-- Shape preservation between two node-table slots: a package node
stays a package node with the same identifier (its payload may change),
a capability node stays itself. -/
def gnodeShape : Option GNode → Option GNode → Prop
  | some (.krate id1 _ _), some (.krate id2 _ _) => id1 = id2
  | some (.feature k1 n1), some (.feature k2 n2) => k1 = k2 ∧ n1 = n2
  | _, _ => False

/-- The edge phases only mutate package-node payloads in place and
append capability nodes. -/
def graphExtends (g g' : Graph) : Prop :=
  g.nodes.length ≤ g'.nodes.length ∧
  (∀ i, i < g.nodes.length → gnodeShape (g.nodes.get? i) (g'.nodes.get? i)) ∧
  (∀ i nd, g.nodes.length ≤ i → g'.nodes.get? i = some nd →
    nd.isFeatureNode = true)

/-- A declared sub-reference never reaches the target package `p`
through a non-weak cross-package reference (resolved against the given
node's dependency list). -/
def weakOnlyRef (p : Kid) (rnode : RNode) (sf : Str) : Bool :=
  match parseFeature sf with
  | .weak _ _ => true
  | .simple _ => true
  | .krate k =>
    match findNodeDep rnode.deps k with
    | some ndep => !kidBeq ndep.pkg p
    | none => true
  | .strong k _ =>
    match findNodeDep rnode.deps k with
    | some ndep => !kidBeq ndep.pkg p
    | none => true

/-- The non-optional pass drops every declared kind/condition variant
of a resolved dependency on the target package: with no strong
activation, the edge filter returns no surviving edge. -/
def depDropsTarget (ctx : BuildCtx) (p : Kid) (krate : Package)
    (isInWorkspace : Bool) (ndep : NodeDep) : Bool :=
  if kidBeq ndep.pkg p then
    match versionParse ndep.pkg.version, getRnode ctx.nodes ndep.pkg with
    | some rdepVersion, some rdepNode =>
      match mapOpt (keepEdge ctx.ignoreKinds ctx.includeAllTargets ctx.targets
          isInWorkspace krate false (!rdepVersion.pre.isEmpty) ndep
          rdepVersion rdepNode.hasDefaultFeature ndep.pkg.name)
          ndep.depKinds with
      | some edgeOpts => (edgeOpts.filterMap id).isEmpty
      | none => true
    | _, _ => true
  else true

/-- No work item targets `p`. -/
def stackClean (p : Kid) (stack : List WorkItem) : Prop :=
  ∀ it ∈ stack, kidBeq it.1 p = false

/-- No key of the map matches `p`. -/
def kmClean {α : Type} (p : Kid) (m : KMap α) : Prop :=
  ∀ e ∈ m, kidBeq e.1 p = false

/-- The worklist invariant: `p` is never scheduled, never a
dependency-map key, and never a per-package dependency key. -/
def stClean (p : Kid) (st : BuildState) : Prop :=
  stackClean p st.visitStack ∧ kmClean p st.depEdgeMap ∧
  ∀ e ∈ st.depEdgeMap, kmClean p e.2.deps

/-- The premises of the weak-only claim, over the parsed inputs: `p`
is not a traversal root, every declared sub-reference resolving to `p`
is weak, and the edge filter keeps no variant of a resolved dependency
on `p` without strong activation. -/
def ctxWeakOnly (ctx : BuildCtx) (p : Kid) : Prop :=
  (∀ r ∈ ctx.roots, kidBeq r p = false) ∧
  (∀ rnode ∈ ctx.nodes, ∀ q ∈ ctx.packages, ∀ fe ∈ q.2.features,
    ∀ sf ∈ fe.2, weakOnlyRef p rnode sf = true) ∧
  (∀ q ∈ ctx.packages, ∀ rnode ∈ ctx.nodes, ∀ ndep ∈ rnode.deps,
    ∀ iw : Bool, depDropsTarget ctx p q.2 iw ndep = true)

/-- Does a node belong to package `p`: a package node with a matching
identifier, or a capability node owned by one. -/
def nodeOwnedBy (g : Graph) (p : Kid) (nd : GNode) : Bool :=
  match nd with
  | .krate id _ _ => kidBeq id p
  | .feature ki _ =>
    match g.nodes.get? ki with
    | some (.krate id _ _) => kidBeq id p
    | _ => false

/-- Does an edge target package `p` or one of its capabilities? -/
def edgeTargetsPkg (g : Graph) (p : Kid) (e : GEdge) : Bool :=
  match g.nodes.get? e.tgt with
  | some nd => nodeOwnedBy g p nd
  | none => false

/-- The C1 witness metadata: workspace member `a` declares an optional
dependency `b` and a feature `f = ["b?/x"]`; the resolve reports `f`
enabled on the root `a`. -/
def mdWeakOnly : Metadata :=
  { packages :=
      [(str "reg#a@0.1.0",
        { name := str "a", version := ⟨0, 1, 0, [], []⟩,
          manifestPath := str "/ws/a/Cargo.toml", source := none,
          dependencies :=
            [{ name := str "b", rename := none, kind := .normal,
               optional := true, usesDefaultFeatures := false,
               features := [], target := none, req := ⟨[]⟩,
               source := none }],
          features := [(str "f", [str "b?/x"])] }),
       (str "reg#b@0.1.0",
        { name := str "b", version := ⟨0, 1, 0, [], []⟩,
          manifestPath := str "/ws/b/Cargo.toml", source := none,
          dependencies := [], features := [(str "x", [])] })],
    workspaceMembers := [str "reg#a@0.1.0"],
    resolve := some
      { nodes :=
          [{ id := str "reg#a@0.1.0",
             deps := [{ name := str "b", pkg := str "reg#b@0.1.0",
                        depKinds := [⟨.normal, none⟩] }],
             features := [str "f"] },
           { id := str "reg#b@0.1.0", deps := [], features := [str "x"] }],
        root := some (str "reg#a@0.1.0") },
    workspaceRoot := str "/ws" }

/-- The identifier of the weak-only target package `b`. -/
def kidBWeak : Kid :=
  (kidFrom (str "reg#b@0.1.0")).getD ⟨str "", (0, 0), (0, 0), (0, 0)⟩

/-- The declared dependency of the C3 witness: a cfg() target expression
that is an empty any(), false under every valuation. -/
def vacuousDep : Dependency :=
  { name := str "b", rename := none, kind := .normal, optional := false,
    usesDefaultFeatures := false, features := [],
    target := some (.cfg (some (.any []))), req := ⟨[]⟩, source := none }

/-- The declaring package of the C3 witness. -/
def vacuousPkg : Package :=
  { name := str "a", version := ⟨0, 1, 0, [], []⟩, manifestPath := str "a",
    source := none, dependencies := [vacuousDep], features := [] }

/-- The resolved dep entry of the C3 witness. -/
def vacuousRdep : NodeDep :=
  { name := str "b", pkg := ⟨str "x#b@0.1.0", (2, 3), (4, 9), (0, 1)⟩,
    depKinds := [⟨.normal, some (.cfg (some (.any [])))⟩] }

end Krates

namespace Krates


/-- C8: `ParsedFeature::from` classifies by testing, in order: a `dep:`
prefix yields the direct-dependency marker with the remainder as the
name; otherwise the first occurrence of `?/` yields a weak reference
split at that index; otherwise the first occurrence of `/` yields a
strong reference split at that index; anything else is a simple local
feature.  The function is total (it returns a `Feature` for every
string), so there is no failure case. -/
theorem parsedFeature_classifies_in_order (s : Str) :
    (strStarts s (str "dep:") = true → parseFeature s = .krate (s.drop 4)) ∧
    (strStarts s (str "dep:") = false → ∀ i, strFindSub s (str "?/") = some i →
      parseFeature s = .weak (s.take i) (s.drop (i + 2))) ∧
    (strStarts s (str "dep:") = false → strFindSub s (str "?/") = none →
      ∀ i, strFindChar s '/' = some i →
      parseFeature s = .strong (s.take i) (s.drop (i + 1))) ∧
    (strStarts s (str "dep:") = false → strFindSub s (str "?/") = none →
      strFindChar s '/' = none → parseFeature s = .simple s) := by
  refine ⟨?_, ?_, ?_, ?_⟩ <;>
    intros <;>
    simp_all [parseFeature, ParsedFeature.from, ParsedFeature.feat]

/-- Witness for C8: each of the four classification branches evaluated
at a concrete input. -/
theorem parsedFeature_classifies_in_order_witness :
    parseFeature (str "dep:serde") = .krate (str "serde") ∧
    parseFeature (str "reqwest?/json") = .weak (str "reqwest") (str "json") ∧
    parseFeature (str "git/ssh") = .strong (str "git") (str "ssh") ∧
    parseFeature (str "simple") = .simple (str "simple") := by
  refine ⟨?_, ?_, ?_, ?_⟩
  · exact (parsedFeature_classifies_in_order (str "dep:serde")).1 (by decide)
  · exact (parsedFeature_classifies_in_order (str "reqwest?/json")).2.1
      (by decide) 7 (by decide)
  · exact (parsedFeature_classifies_in_order (str "git/ssh")).2.2.1
      (by decide) (by decide) 3 (by decide)
  · exact (parsedFeature_classifies_in_order (str "simple")).2.2.2
      (by decide) (by decide) (by decide)

/-- C10: when the package has no source (a local path/workspace
package), `PkgSpec::matches` ignores the spec's url requirement
entirely: it returns true whenever the name matches exactly and the
version, when present in the spec, equals the package's version. -/
theorem pkgspec_url_ignored_for_sourceless_packages
    (spec : PkgSpec) (pkg : Package)
    (hurl : spec.url.isSome)
    (hsrc : pkg.source = none)
    (hname : spec.name = pkg.name)
    (hver : ∀ v, spec.version = some v → v = pkg.version) :
    spec.matches pkg = true := by
  unfold PkgSpec.matches
  rw [hsrc]
  simp only [hname]
  have hv : spec.version.elim false (fun vers => vers ≠ pkg.version) = false := by
    cases hx : spec.version with
    | none => rfl
    | some v => simp [Option.elim, hver v hx]
  rw [hv]
  rcases hu : spec.url with _ | u
  · simp [hu] at hurl
  · simp

/-- C5: identifiers parsed from an opaque-format raw string and from a
stable-format raw string which locate equal `(name, version, source)`
substrings compare equal under `Ord`/`Eq` — comparison is by the
located component substrings, never by the raw representation — and
(by hypothesis) report identical `name()`/`version()`/`source()`. -/
theorem kid_two_formats_compare_equal (r1 r2 : Str) (k1 k2 : Kid)
    (h1 : kidFrom r1 = some k1) (h2 : kidFrom r2 = some k2)
    (hn : k1.name = k2.name) (hv : k1.version = k2.version)
    (hs : k1.source = k2.source) :
    Kid.cmp k1 k2 = .eq ∧ kidBeq k1 k2 = true := by
  have hc := Kid.cmp_eq_of_components k1 k2 hn hv hs
  exact ⟨hc, by unfold kidBeq; rw [hc]; rfl⟩

/-- Witness for C5: the `fuser 0.4.1` package written in both raw
formats parses to identifiers that compare equal. -/
theorem kid_two_formats_compare_equal_witness :
    Kid.cmp ⟨fuserOpaque, (0, 5), (6, 11), (13, 63)⟩
        ⟨fuserStable, (31, 36), (51, 56), (0, 50)⟩ = .eq ∧
      kidBeq ⟨fuserOpaque, (0, 5), (6, 11), (13, 63)⟩
        ⟨fuserStable, (31, 36), (51, 56), (0, 50)⟩ = true := by
  exact kid_two_formats_compare_equal fuserOpaque fuserStable _ _
    (by decide) (by decide) (by decide) (by decide) (by decide)

/-- C9: two identifiers — one from the opaque raw format, one from the
stable raw format of the same `(name, version, source)` — that are
equal under `Eq`/`Ord` yet feed different byte strings to the hasher,
because `Hash` writes the raw identifier bytes while equality compares
only the located substrings. -/
theorem kid_hash_inconsistent_with_eq :
    ∃ k1 k2 : Kid,
      kidFrom (str "bindgen 0.59.2 (registry+https://github.com/rust-lang/crates.io-index)")
          = some k1 ∧
      kidFrom (str "registry+https://github.com/rust-lang/crates.io-index#bindgen@0.59.2")
          = some k2 ∧
      Kid.cmp k1 k2 = .eq ∧ kidBeq k1 k2 = true ∧
      k1.hashInput ≠ k2.hashInput := by
  refine ⟨⟨str "bindgen 0.59.2 (registry+https://github.com/rust-lang/crates.io-index)",
      (0, 7), (8, 14), (16, 69)⟩,
    ⟨str "registry+https://github.com/rust-lang/crates.io-index#bindgen@0.59.2",
      (54, 61), (62, 68), (0, 53)⟩,
    by decide, by decide, by decide, by decide, by decide⟩

mutual

theorem CfgExpr.eval_indep (f g : CfgPred → Bool) :
    ∀ (e : CfgExpr), e.preds = [] → e.eval f = e.eval g
  | .pred p, h => by simp [CfgExpr.preds] at h
  | .all xs, h => by
    simp only [CfgExpr.eval]
    exact CfgExpr.evalAll_indep f g xs (by simpa [CfgExpr.preds] using h)
  | .any xs, h => by
    simp only [CfgExpr.eval]
    exact CfgExpr.evalAny_indep f g xs (by simpa [CfgExpr.preds] using h)
  | .not x, h => by
    simp only [CfgExpr.eval]
    rw [CfgExpr.eval_indep f g x (by simpa [CfgExpr.preds] using h)]

theorem CfgExpr.evalAll_indep (f g : CfgPred → Bool) :
    ∀ (xs : List CfgExpr), CfgExpr.predsList xs = [] →
      CfgExpr.evalAll f xs = CfgExpr.evalAll g xs
  | [], _ => rfl
  | x :: xs, h => by
    have h' := List.append_eq_nil.mp (by simpa [CfgExpr.predsList] using h)
    simp only [CfgExpr.evalAll]
    rw [CfgExpr.eval_indep f g x h'.1, CfgExpr.evalAll_indep f g xs h'.2]

theorem CfgExpr.evalAny_indep (f g : CfgPred → Bool) :
    ∀ (xs : List CfgExpr), CfgExpr.predsList xs = [] →
      CfgExpr.evalAny f xs = CfgExpr.evalAny g xs
  | [], _ => rfl
  | x :: xs, h => by
    have h' := List.append_eq_nil.mp (by simpa [CfgExpr.predsList] using h)
    simp only [CfgExpr.evalAny]
    rw [CfgExpr.eval_indep f g x h'.1, CfgExpr.evalAny_indep f g xs h'.2]

end

/-- C3: a dep-kind variant whose platform condition is a `cfg()`
expression with zero predicates that evaluates false under the all-true
predicate valuation never produces an edge, under every builder
configuration — whether or not target filtering was requested,
including the empty target-filter list. -/
theorem vacuous_false_cfg_edge_always_dropped
    (ignoreKinds : Nat) (includeAllTargets : Bool) (targets : List TargetFilter)
    (isInWorkspace : Bool) (krate : Package) (strong hasPre : Bool)
    (rdep : NodeDep) (rdepVersion : Version) (rdepHasDefault : Bool)
    (maybeRealName : Str) (dk : DepKindInfo) (expr : CfgExpr)
    (hcfg : dk.cfg = some (.cfg (some expr)))
    (hpreds : expr.preds = [])
    (heval : expr.eval (fun _ => true) = false) :
    ∀ e, keepEdge ignoreKinds includeAllTargets targets isInWorkspace krate
      strong hasPre rdep rdepVersion rdepHasDefault maybeRealName dk ≠
        some (some e) := by
  intro e
  have hany : (targets.any fun t => CfgExpr.eval t.evalPred expr) = false := by
    rw [List.any_eq_false]
    intro t _
    rw [CfgExpr.eval_indep t.evalPred (fun _ => true) expr hpreds, heval]
    simp
  have hvac : (expr.preds.isEmpty && !CfgExpr.eval (fun _ => true) expr) = true := by
    simp [hpreds, heval]
  rcases hk : findDepDecl krate rdep rdepVersion hasPre maybeRealName dk with _ | dep
  · simp only [keepEdge, hcfg, hk]
    split_ifs <;> simp
  · simp only [keepEdge, hcfg, hk, hany, hvac, Bool.not_false, if_true]
    split_ifs <;> simp_all

/-! ## Support lemmas for the builder theorems -/

theorem mapOpt_mem {α β} {f : α → Option β} :
    ∀ {l : List α} {res : List β}, mapOpt f l = some res →
      ∀ b ∈ res, ∃ a ∈ l, f a = some b
  | [], res, h => by
    simp [mapOpt] at h
    subst h
    simp
  | x :: xs, res, h => by
    simp only [mapOpt, Option.bind_eq_bind] at h
    rcases hx : f x with _ | y <;> rw [hx] at h
    · cases h
    · rcases hxs : mapOpt f xs with _ | ys <;> rw [hxs] at h
      · cases h
      · simp only [Option.some_bind, Option.some.injEq] at h
        subst h
        intro b hb
        rcases List.mem_cons.mp hb with hb | hb
        · exact ⟨x, by simp, by rw [hb]; exact hx⟩
        · obtain ⟨a, ha, hfa⟩ := mapOpt_mem hxs b hb
          exact ⟨a, by simp [ha], hfa⟩

theorem kmSet_mem {α} {m : KMap α} {k : Kid} {v : α} :
    ∀ e ∈ kmSet m k v, e = (k, v) ∨ e ∈ m := by
  induction m with
  | nil => simp [kmSet]
  | cons hd tl ih =>
    intro e he
    unfold kmSet at he
    rcases hc : Kid.cmp k hd.1 with _ | _ | _ <;> rw [hc] at he <;>
      simp only [List.mem_cons] at he
    · rcases he with he | he | he
      · exact Or.inl he
      · exact Or.inr (by simp [he])
      · exact Or.inr (by simp [he])
    · rcases he with he | he
      · exact Or.inl he
      · exact Or.inr (by simp [he])
    · rcases he with he | he
      · exact Or.inr (by simp [he])
      · rcases ih e he with h | h
        · exact Or.inl h
        · exact Or.inr (by simp [h])

theorem kmGet_isSome_of_mem {α} {m : KMap α} {e : Kid × α} {key : Kid}
    (hm : e ∈ m) (hk : kidBeq e.1 key = true) : (kmGet m key).isSome := by
  unfold kmGet
  have hf : (m.find? (fun e => kidBeq e.1 key)).isSome :=
    List.find?_isSome.mpr ⟨e, hm, hk⟩
  rcases hfe : m.find? (fun e => kidBeq e.1 key) with _ | e'
  · rw [hfe] at hf
    cases hf
  · rw [hfe]
    rfl

theorem mem_sortByKid {α} {key : α → Kid} {l : List α} {a : α} :
    a ∈ sortByKid key l ↔ a ∈ l :=
  (List.perm_insertionSort _ l).mem_iff

/-- Every parsed resolve node's id is covered by a package entry (the
`unreachable!` check during node construction). -/
theorem parseRNodes_covered {packages : List (Kid × Package)}
    {l : List RawNode} {nodes : List RNode}
    (h : parseRNodes packages l = some nodes) :
    ∀ n ∈ nodes, ∃ p ∈ packages, kidBeq p.1 n.id = true := by
  unfold parseRNodes at h
  rcases hm : mapOpt (parseRNode packages) l with _ | ns <;> rw [hm] at h
  · cases h
  · have h' : sortByKid (fun n => n.id) ns = nodes := Option.some.inj h
    subst h'
    intro n hn
    obtain ⟨rn, _, hrn⟩ := mapOpt_mem hm n (mem_sortByKid.mp hn)
    unfold parseRNode at hrn
    rcases hk : kidFrom rn.id with _ | id <;> rw [hk] at hrn
    · cases hrn
    · simp only [Option.bind_eq_bind, Option.some_bind] at hrn
      rcases hs : pkgSearch packages id with _ | j <;> rw [hs] at hrn
      · cases hrn
      · simp only [Option.isNone_some, Bool.false_eq_true, if_false] at hrn
        rcases hd : mapOpt _ rn.deps with _ | ds <;> rw [hd] at hrn
        · cases hrn
        · simp only [Option.some_bind, Option.some.injEq] at hrn
          have hid : n.id = id := by rw [← hrn]
          unfold pkgSearch at hs
          obtain ⟨hlt, hp, _⟩ := List.findIdx?_eq_some_iff_getElem.mp hs
          refine ⟨packages[j], by simp, ?_⟩
          rw [hid]
          exact hp

/-- A successful `processBranch` always stores an entry for the popped
package into the dependency map. -/
theorem processBranch_shape {ctx : BuildCtx} {st : BuildState} {pid : Kid}
    {rnode : RNode} {krate : Package} {w : Bool} {kf : KrateFeatures}
    {pn : PackageNode} {feature : Option Nat} {st' : BuildState}
    (h : processBranch ctx st pid rnode krate w kf pn feature = some st') :
    ∃ pn', st'.depEdgeMap = kmSet st.depEdgeMap pid pn' := by
  rcases feature with _ | feat
  · unfold processBranch at h
    simp only [Option.bind_eq_bind] at h
    rcases hfold : (rnode.deps.foldl
        (fun m ndep => kmSet m ndep.pkg (ndep, (none : Option NatSet)))
        []).foldlM
        (fun acc e => processDepEntry ctx krate w acc (e.1, e.2.1, e.2.2))
        (pn, st.visitStack) with _ | pr <;> rw [hfold] at h
    · cases h
    · simp only [Option.some_bind, Option.some.injEq] at h
      exact ⟨pr.1, by rw [← h]⟩
  · unfold processBranch at h
    simp only [Option.bind_eq_bind] at h
    rcases hrefs : processFeatureRefs ctx.nodes rnode krate pid pn.deps feat kf
        st.visitStack with _ | trip <;> rw [hrefs] at h
    · cases h
    · simp only [Option.some_bind] at h
      rcases hfold : trip.2.1.foldlM
          (fun acc e => processDepEntry ctx krate w acc (e.1, e.2.1, e.2.2))
          (pn, trip.2.2) with _ | pr <;> rw [hfold] at h
      · cases h
      · simp only [Option.some_bind, Option.some.injEq] at h
        exact ⟨pr.1, by rw [← h]⟩

/-- A successful `processItem` leaves the dependency map unchanged or
replaces/creates exactly the popped package's entry — and in the latter
case the package has a resolve node. -/
theorem processItem_shape {ctx : BuildCtx} {st : BuildState} {pid : Kid}
    {feature : Option Nat} {st' : BuildState}
    (h : processItem ctx st pid feature = some st') :
    st'.depEdgeMap = st.depEdgeMap ∨
      ((∃ pn, st'.depEdgeMap = kmSet st.depEdgeMap pid pn) ∧
        ∃ n ∈ ctx.nodes, kidBeq n.id pid = true) := by
  unfold processItem at h
  split at h
  · left
    rw [← Option.some.inj h]
  · simp only [Option.bind_eq_bind] at h
    rcases hks : nodeSearch ctx.nodes pid with _ | ki <;> rw [hks] at h
    · cases h
    · simp only [Option.some_bind] at h
      rcases hrn : ctx.nodes.get? ki with _ | rnode <;> rw [hrn] at h
      · cases h
      · simp only [Option.some_bind] at h
        rcases hpe : ctx.packages.get? ki with _ | pkgEntry <;> rw [hpe] at h
        · cases h
        · simp only [Option.some_bind] at h
          have hmem : ∃ n ∈ ctx.nodes, kidBeq n.id pid = true := by
            unfold nodeSearch at hks
            obtain ⟨hlt, hp, _⟩ := List.findIdx?_eq_some_iff_getElem.mp hks
            exact ⟨ctx.nodes[ki], by simp, hp⟩
          split at h
          · left
            rw [← Option.some.inj h]
          · exact Or.inr ⟨processBranch_shape h, hmem⟩

theorem kidBeq_iff {a b : Kid} : kidBeq a b = true ↔ Kid.cmp a b = .eq := by
  unfold kidBeq
  cases h : Kid.cmp a b <;> decide

theorem kidBeq_symm {a b : Kid} (h : kidBeq a b = true) : kidBeq b a = true :=
  kidBeq_iff.mpr (kidCmp_eq_symm (kidBeq_iff.mp h))

theorem kidBeq_trans {a b c : Kid} (h1 : kidBeq a b = true)
    (h2 : kidBeq b c = true) : kidBeq a c = true :=
  kidBeq_iff.mpr (kidCmp_eq_trans (kidBeq_iff.mp h1) (kidBeq_iff.mp h2))

/-- Through the whole worklist loop, every key of the dependency map
stays covered by a package entry. -/
theorem buildLoop_covered {ctx : BuildCtx}
    (hcov : ∀ n ∈ ctx.nodes, ∃ p ∈ ctx.packages, kidBeq p.1 n.id = true) :
    ∀ (fuel : Nat) (st stF : BuildState), buildLoop ctx fuel st = some stF →
      (∀ e ∈ st.depEdgeMap, ∃ p ∈ ctx.packages, kidBeq p.1 e.1 = true) →
      ∀ e ∈ stF.depEdgeMap, ∃ p ∈ ctx.packages, kidBeq p.1 e.1 = true := by
  intro fuel
  induction fuel with
  | zero =>
    intro st stF h hst
    unfold buildLoop at h
    rcases hs : st.visitStack with _ | ⟨it, rest⟩ <;> rw [hs] at h
    · rw [← Option.some.inj h]
      exact hst
    · cases h
  | succ fuel ih =>
    intro st stF h hst
    unfold buildLoop at h
    rcases hs : st.visitStack with _ | ⟨it, rest⟩ <;> rw [hs] at h
    · rw [← Option.some.inj h]
      exact hst
    · simp only [Option.bind_eq_bind] at h
      rcases hpi : processItem ctx { st with visitStack := rest } it.1 it.2
          with _ | st1 <;> rw [hpi] at h
      · cases h
      · simp only [Option.some_bind] at h
        refine ih st1 stF h ?_
        rcases processItem_shape hpi with hsame | ⟨⟨pn, hset⟩, n, hn, hnb⟩
        · rw [hsame]
          exact hst
        · rw [hset]
          intro e he
          rcases kmSet_mem e he with he' | he'

          · obtain ⟨p, hp, hpb⟩ := hcov n hn
            exact ⟨p, hp, by rw [he']; exact kidBeq_trans hpb hnb⟩
          · exact hst e he'

/-- The materialization fold only appends nodes, and appends at least
one when some package has a surviving entry. -/
theorem matFold_grows {nodes : List RNode} {dem : KMap PackageNode}
    {fem : KMap KrateFeatures} :
    ∀ (l : List (Kid × Package)) (acc out : List GNode × List Package),
      l.foldlM (matStep nodes dem fem) acc = some out →
      ∃ suffix, out.1 = acc.1 ++ suffix ∧
        ((∃ p ∈ l, (kmGet dem p.1).isSome) → suffix ≠ []) := by
  intro l
  induction l with
  | nil =>
    intro acc out h
    rw [List.foldlM_nil] at h
    exact ⟨[], by rw [← Option.some.inj h]; simp, by simp⟩
  | cons p l' ih =>
    intro acc out h
    rw [List.foldlM_cons] at h
    rcases hstep : matStep nodes dem fem acc p with _ | acc' <;> rw [hstep] at h
    · cases h
    · obtain ⟨suf, hsuf, hne⟩ := ih acc' out h
      unfold matStep at hstep
      rcases hg : kmGet dem p.1 with _ | pn <;> rw [hg] at hstep
      · have hacc : acc' = (acc.1, acc.2 ++ [p.2]) := by
          exact (Option.some.inj hstep).symm
        refine ⟨suf, by rw [hsuf, hacc], ?_⟩
        intro ⟨q, hq, hqs⟩
        rcases List.mem_cons.mp hq with hq' | hq'
        · rw [hq'] at hqs
          rw [hg] at hqs
          cases hqs
        · exact hne ⟨q, hq', hqs⟩
      · simp only [Option.bind_eq_bind] at hstep
        rcases hr : getRnode nodes p.1 with _ | rnode <;> rw [hr] at hstep
        · cases hstep
        · simp only [Option.some_bind] at hstep
          rcases hf : matFeatures fem p.1 rnode pn with _ | feats <;>
            rw [hf] at hstep
          · cases hstep
          · simp only [Option.some_bind, Option.some.injEq] at hstep
            have hacc : acc' = (acc.1 ++ [GNode.krate p.1 p.2 feats], acc.2) := by
              exact hstep.symm
            refine ⟨GNode.krate p.1 p.2 feats :: suf, ?_, by simp⟩
            rw [hsuf, hacc]
            simp

/-- A successful setup yields a context whose resolve nodes are all
covered by package entries, and an empty dependency map. -/
theorem buildSetup_shape {b : Builder} {md : Metadata} {resolved : Resolve}
    {ctx : BuildCtx} {st0 : BuildState}
    (h : buildSetup b md resolved = some (ctx, st0)) :
    (∀ n ∈ ctx.nodes, ∃ p ∈ ctx.packages, kidBeq p.1 n.id = true) ∧
      st0.depEdgeMap = [] := by
  unfold buildSetup at h
  simp only [Option.bind_eq_bind] at h
  rcases hpk : parsePackages md.packages with _ | packages <;> rw [hpk] at h
  · cases h
  · simp only [Option.some_bind] at h
    rcases hwm : parseMembers md.workspaceMembers with _ | wm <;> rw [hwm] at h
    · cases h
    · simp only [Option.some_bind] at h
      rcases hr : parseRoot resolved.root with _ | root <;> rw [hr] at h
      · cases h
      · simp only [Option.some_bind] at h
        rcases hn : parseRNodes packages resolved.nodes with _ | nodes <;>
          rw [hn] at h
        · cases h
        · simp only [Option.some_bind] at h
          rcases hst : seedStack nodes
              (computeRoots b md packages wm root) with _ | stack <;>
            rw [hst] at h
          · cases h
          · simp only [Option.some_bind, Option.some.injEq, Prod.mk.injEq] at h
            obtain ⟨hctx, hst0⟩ := h
            subst hctx
            subst hst0
            refine ⟨?_, rfl⟩
            intro n hnn
            exact parseRNodes_covered hn n hnn

/-- `buildFinish` returns only the `NoRootKrates` error, and a success
has a nonempty dependency map with the prefix length fixed by the
materialization pass. -/
theorem buildFinish_shape {ctx : BuildCtx} {md : Metadata} {stF : BuildState}
    {fuel : Nat} {r : Except KError (Krates × List Package)}
    (h : buildFinish ctx md stF fuel = some r) :
    (∀ e, r = .error e → e = .noRootKrates) ∧
      (∀ k fl, r = .ok (k, fl) → stF.depEdgeMap ≠ [] ∧
        ∃ mr, materializeNodes ctx.nodes stF.depEdgeMap stF.featureEdgeMap
            ctx.packages = some mr ∧ k.kratesEnd = mr.1.length) := by
  unfold buildFinish at h
  split at h
  · have hr : r = .error .noRootKrates := (Option.some.inj h).symm
    constructor
    · intro e he
      rw [hr] at he
      exact (Except.error.inj he).symm
    · intro k fl hk
      rw [hr] at hk
      cases hk
  · simp only [Option.bind_eq_bind] at h
    rcases hm : materializeNodes ctx.nodes stF.depEdgeMap stF.featureEdgeMap
        ctx.packages with _ | mr <;> rw [hm] at h
    · cases h
    · simp only [Option.some_bind] at h
      rcases hce : crateEdgesPhase ctx.nodes mr.1.length
          { nodes := mr.1, edges := [] } stF.depEdgeMap with _ | g1 <;>
        rw [hce] at h
      · cases h
      · simp only [Option.some_bind] at h
        rcases hw : wiringPhase fuel g1 mr.1.length stF.featureEdgeMap
            with _ | g2 <;> rw [hw] at h
        · cases h
        · simp only [Option.some_bind] at h
          have hr := (Option.some.inj h).symm
          constructor
          · intro e he
            rw [hr] at he
            cases he
          · intro k fl hk
            rw [hr] at hk
            have hk' := Except.ok.inj hk
            constructor
            · intro hemp
              rename_i hne
              rw [hemp] at hne
              exact hne rfl
            · refine ⟨mr, rfl, ?_⟩
              rw [← (Prod.mk.injEq _ _ _ _).mp hk' |>.1]

/-- C2 (amended): whenever `build_with_metadata` returns — rather than
crashing on metadata violating its internal contracts — it returns the
`NoResolveGraph` error exactly when the input's resolve field is
absent; the only other returned error is `NoRootKrates`; and a
successful build always contains at least one package node (an empty
graph is never a success). -/
theorem build_failure_modes (b : Builder) (md : Metadata) (fuel : Nat) :
    (buildWithMetadata b md fuel = some (.error .noResolveGraph) ↔
      md.resolve = none) ∧
    (∀ e, buildWithMetadata b md fuel = some (.error e) →
      e = .noResolveGraph ∨ e = .noRootKrates) ∧
    (∀ k fl, buildWithMetadata b md fuel = some (.ok (k, fl)) →
      0 < k.kratesEnd) := by
  rcases hres : md.resolve with _ | resolved
  · refine ⟨⟨fun _ => rfl, fun _ => ?_⟩, ?_, ?_⟩
    · unfold buildWithMetadata
      rw [hres]
    · intro e he
      unfold buildWithMetadata at he
      rw [hres] at he
      exact Or.inl (Except.error.inj (Option.some.inj he)).symm
    · intro k fl hk
      unfold buildWithMetadata at hk
      rw [hres] at hk
      cases Option.some.inj hk
  · have hchain : ∀ r, buildWithMetadata b md fuel = some r →
        ∃ ctx st0 stF, buildSetup b md resolved = some (ctx, st0) ∧
          buildLoop ctx fuel st0 = some stF ∧
          buildFinish ctx md stF fuel = some r := by
      intro r hr
      unfold buildWithMetadata at hr
      rw [hres] at hr
      simp only [Option.bind_eq_bind] at hr
      rcases hsetup : buildSetup b md resolved with _ | cs <;> rw [hsetup] at hr
      · cases hr
      · simp only [Option.some_bind] at hr
        rcases hloop : buildLoop cs.1 fuel cs.2 with _ | stF <;> rw [hloop] at hr
        · cases hr
        · exact ⟨cs.1, cs.2, stF, rfl, hloop, hr⟩
    refine ⟨⟨?_, ?_⟩, ?_, ?_⟩
    · intro hcontra
      obtain ⟨ctx, st0, stF, _, _, hfin⟩ := hchain _ hcontra
      have := (buildFinish_shape hfin).1 .noResolveGraph rfl
      cases this
    · intro h
      exact Option.noConfusion h
    · intro e he
      obtain ⟨ctx, st0, stF, _, _, hfin⟩ := hchain _ he
      exact Or.inr ((buildFinish_shape hfin).1 e rfl)
    · intro k fl hk
      obtain ⟨ctx, st0, stF, hsetup, hloop, hfin⟩ := hchain _ hk
      obtain ⟨hcovN, hst0⟩ := buildSetup_shape hsetup
      obtain ⟨hne, mr, hmr, hkre⟩ := (buildFinish_shape hfin).2 k fl rfl
      have hcovF := buildLoop_covered hcovN fuel st0 stF hloop
        (by rw [hst0]; simp)
      rcases hdem : stF.depEdgeMap with _ | ⟨e0, rest⟩
      · exact absurd hdem hne
      · obtain ⟨p, hp, hpb⟩ := hcovF e0 (by rw [hdem]; simp)
        have hsome : (kmGet stF.depEdgeMap p.1).isSome :=
          kmGet_isSome_of_mem (m := stF.depEdgeMap) (e := e0)
            (by rw [hdem]; simp) (kidBeq_symm hpb)
        obtain ⟨suffix, hsufeq, hsufne⟩ :=
          matFold_grows ctx.packages ([], []) mr hmr
        have hnesuf : suffix ≠ [] := hsufne ⟨p, hp, hsome⟩
        rw [hkre, hsufeq]
        simpa using List.length_pos.mpr hnesuf

/-- Counterexample for C2 as stated: an input whose resolve field is
present (so neither of the two announced failure modes applies a
priori) on which the builder crashes (`unreachable!`) instead of
returning a graph or one of the two errors. -/
theorem build_failure_modes_counterexample :
    buildWithMetadata Builder.new mdContractViolation 10 = none ∧
      mdContractViolation.resolve ≠ none := by
  exact ⟨rfl, fun h => Option.noConfusion h⟩

/-- Witness for C2 (amended): the iff applied at a metadata input with
no resolve graph. -/
theorem build_failure_modes_witness :
    buildWithMetadata Builder.new
      { packages := [], workspaceMembers := [], resolve := none,
        workspaceRoot := str "/ws" } 10 =
      some (.error .noResolveGraph) :=
  (build_failure_modes Builder.new _ 10).1.mpr rfl

/-- C4: `krates_filtered` does not match a rebuild with the kind
ignored.  On `mdKindFilter`, the filtered view of the unfiltered build
still contains workspace member `b` (the walk seeds every workspace
member present in the graph), while building with
`ignore_kind(Dev, Scope::All)` yields a graph without `b` — the
package sets differ, contradicting the function's documented
equivalence. -/
theorem krates_filtered_ne_rebuild :
    filteredViewNames Builder.new mdKindFilter 100 .dev =
        some [str "a", str "b"] ∧
      builtNames (Builder.new.ignoreKind .dev .all) mdKindFilter 100 =
        some [str "a"] ∧
      filteredViewNames Builder.new mdKindFilter 100 .dev ≠
        builtNames (Builder.new.ignoreKind .dev .all) mdKindFilter 100 := by
  refine ⟨rfl, rfl, ?_⟩
  intro h
  rw [show filteredViewNames Builder.new mdKindFilter 100 .dev =
      some [str "a", str "b"] from rfl,
    show builtNames (Builder.new.ignoreKind .dev .all) mdKindFilter 100 =
      some [str "a"] from rfl] at h
  exact absurd (List.cons.inj (Option.some.inj h)).2 (by decide)

/-- The materialization fold only appends nodes satisfying
`NodeFeatSpec`. -/
theorem matFold_features {nodes : List RNode} {dem : KMap PackageNode}
    {fem : KMap KrateFeatures} :
    ∀ (l : List (Kid × Package)) (acc out : List GNode × List Package),
      l.foldlM (matStep nodes dem fem) acc = some out →
      (∀ nd ∈ acc.1, NodeFeatSpec nodes dem fem nd) →
      ∀ nd ∈ out.1, NodeFeatSpec nodes dem fem nd := by
  intro l
  induction l with
  | nil =>
    intro acc out h hacc
    rw [List.foldlM_nil] at h
    rw [← Option.some.inj h]
    exact hacc
  | cons p l' ih =>
    intro acc out h hacc
    rw [List.foldlM_cons] at h
    rcases hstep : matStep nodes dem fem acc p with _ | acc' <;> rw [hstep] at h
    · cases h
    · refine ih acc' out h ?_
      unfold matStep at hstep
      rcases hg : kmGet dem p.1 with _ | pn <;> rw [hg] at hstep
      · have : acc' = (acc.1, acc.2 ++ [p.2]) := (Option.some.inj hstep).symm
        rw [this]
        exact hacc
      · simp only [Option.bind_eq_bind] at hstep
        rcases hr : getRnode nodes p.1 with _ | rnode <;> rw [hr] at hstep
        · cases hstep
        · simp only [Option.some_bind] at hstep
          rcases hf : matFeatures fem p.1 rnode pn with _ | feats <;>
            rw [hf] at hstep
          · cases hstep
          · simp only [Option.some_bind, Option.some.injEq] at hstep
            have hacc' : acc' = (acc.1 ++ [GNode.krate p.1 p.2 feats], acc.2) :=
              hstep.symm
            rw [hacc']
            intro nd hnd
            rcases List.mem_append.mp hnd with hnd' | hnd'
            · exact hacc nd hnd'
            · have : nd = GNode.krate p.1 p.2 feats := by
                simpa using hnd'
              intro id pk fs heq
              rw [this] at heq
              obtain ⟨hid, hpk, hfs⟩ := GNode.krate.inj heq
              refine ⟨pn, rnode, by rw [← hid]; exact hg, by rw [← hid]; exact hr, ?_⟩
              unfold matFeatures at hf
              split at hf
              · rename_i hroot
                exact Or.inl ⟨hroot, by rw [← hfs]; exact (Option.some.inj hf).symm⟩
              · rename_i hroot
                simp only [Option.bind_eq_bind] at hf
                rcases hkf : kmGet fem p.1 with _ | kf <;> rw [hkf] at hf
                · cases hf
                · simp only [Option.some_bind] at hf
                  refine Or.inr ⟨by simpa using hroot, kf, by rw [← hid]; exact hkf, ?_⟩
                  rw [← hfs]
                  exact hf

/-- C7 (amended): when the package nodes are materialized, a root node
is given exactly the feature list reported by the input resolve node
(as an ordered set), and a non-root node exactly the builder-traversal
accumulation; the subsequent capability-wiring pass may still extend
either set (see the counterexample). -/
theorem materializeNodes_features {nodes : List RNode}
    {dem : KMap PackageNode} {fem : KMap KrateFeatures}
    {packages : List (Kid × Package)} {mr : List GNode × List Package}
    (h : materializeNodes nodes dem fem packages = some mr) :
    ∀ nd ∈ mr.1, NodeFeatSpec nodes dem fem nd :=
  matFold_features packages ([], []) mr h (by simp)

/-- Counterexample for C7 as stated: on `mdWeakWiring` the build
succeeds and the root's published set is `{b, f, g}`, while the input
resolve node reported exactly `{b, f}` — the final capability-wiring
pass added `g` (the weakly referenced capability of `b` whose node did
not exist) to the root's set. -/
theorem root_features_not_exactly_reported :
    builtFeaturesOf Builder.new mdWeakWiring 100 (str "reg#a@0.1.0") =
        some [str "b", str "f", str "g"] ∧
      (mdWeakWiring.resolve.bind (fun r =>
          r.nodes.find? (fun n => decide (n.id = str "reg#a@0.1.0")))).map
          (fun n => n.features.foldl ssInsert []) =
        some [str "b", str "f"] ∧
      ([str "b", str "f", str "g"] : StrSet) ≠ [str "b", str "f"] := by
  exact ⟨rfl, rfl, by decide⟩

/-- Witness for C7 (amended): a one-package materialization in which
the root node is given exactly the reported list. -/
theorem materializeNodes_features_witness :
    ∃ pn rnode, kmGet [(kidA, pnRootA)] kidA = some pn ∧
      getRnode [rnodeA] kidA = some rnode ∧
      ((pn.isRoot = true ∧
          ([str "b", str "f"] : StrSet) = rnode.features.foldl ssInsert []) ∨
        (pn.isRoot = false ∧
          ∃ kf, kmGet ([] : KMap KrateFeatures) kidA = some kf ∧
            kf.actual.foldlM (fun s k => (rnode.feature k).map (ssInsert s)) []
              = some [str "b", str "f"])) := by
  have h := @materializeNodes_features [rnodeA] [(kidA, pnRootA)]
    ([] : KMap KrateFeatures) [(kidA, pkgStubA)]
    ([GNode.krate kidA pkgStubA [str "b", str "f"]], []) rfl
  exact h (GNode.krate kidA pkgStubA [str "b", str "f"]) (by simp)
    kidA pkgStubA [str "b", str "f"] rfl

/-! ## The node-table prefix invariant (C6) -/

theorem gnodeShape_refl : ∀ (o : Option GNode), o.isSome → gnodeShape o o
  | some (.krate _ _ _), _ => rfl
  | some (.feature _ _), _ => ⟨rfl, rfl⟩

theorem graphExtends_refl (g : Graph) : graphExtends g g := by
  refine ⟨Nat.le_refl _, ?_, ?_⟩
  · intro i hi
    exact gnodeShape_refl _ (by simp [List.get?_eq_getElem?, hi,
      List.getElem?_eq_getElem hi])
  · intro i nd hle hget
    obtain ⟨h, _⟩ := List.get?_eq_some.mp hget
    omega

theorem gnodeShape_trans {a b c : Option GNode} (h1 : gnodeShape a b)
    (h2 : gnodeShape b c) : gnodeShape a c := by
  rcases a with _ | (_ | _) <;> rcases b with _ | (_ | _) <;>
    rcases c with _ | (_ | _) <;> simp_all [gnodeShape]

theorem graphExtends_trans {g1 g2 g3 : Graph} (h1 : graphExtends g1 g2)
    (h2 : graphExtends g2 g3) : graphExtends g1 g3 := by
  obtain ⟨hl1, hs1, hf1⟩ := h1
  obtain ⟨hl2, hs2, hf2⟩ := h2
  refine ⟨Nat.le_trans hl1 hl2, ?_, ?_⟩
  · intro i hi
    exact gnodeShape_trans (hs1 i hi) (hs2 i (Nat.lt_of_lt_of_le hi hl1))
  · intro i nd hle hget
    by_cases hi2 : i < g2.nodes.length
    · have := hs2 i hi2
      rcases hn2 : g2.nodes.get? i with _ | nd2
      · rw [hn2] at this
        rcases hn3 : g3.nodes.get? i with _ | nd3 <;> rw [hn3] at this <;>
          cases this
      · have hfeat := hf1 i nd2 hle hn2
        rw [hn2, hget] at this
        rcases nd2 with _ | _ <;> rcases nd with _ | _ <;>
          simp_all [gnodeShape, GNode.isFeatureNode]
    · exact hf2 i nd (Nat.le_of_not_lt hi2) hget

theorem graphExtends_addEdge (g : Graph) (src tgt : Nat) (d : GEdgeData) :
    graphExtends g (g.addEdge src tgt d) :=
  graphExtends_refl g

theorem graphExtends_addNodeFeature (g : Graph) (ki : Nat) (nm : Str) :
    graphExtends g (g.addNode (.feature ki nm)).1 := by
  refine ⟨by simp [Graph.addNode], ?_, ?_⟩
  · intro i hi
    have : (g.nodes ++ [GNode.feature ki nm]).get? i = g.nodes.get? i := by
      rw [List.get?_eq_getElem?, List.get?_eq_getElem?,
        List.getElem?_append_left hi]
    rw [show (g.addNode (.feature ki nm)).1.nodes =
      g.nodes ++ [GNode.feature ki nm] from rfl, this]
    exact gnodeShape_refl _ (by simp [List.get?_eq_getElem?,
      List.getElem?_eq_getElem hi])
  · intro i nd hle hget
    rw [show (g.addNode (.feature ki nm)).1.nodes =
      g.nodes ++ [GNode.feature ki nm] from rfl] at hget
    rw [List.get?_eq_getElem?, List.getElem?_append_right hle] at hget
    rcases hi : i - g.nodes.length with _ | j <;> rw [hi] at hget
    · rw [← Option.some.inj hget]
      rfl
    · simp at hget

theorem gnodeShape_id {a b : GNode} (h : gnodeShape (some a) (some b)) :
    gnodeId? a = gnodeId? b ∧ a.isFeatureNode = b.isFeatureNode := by
  cases a <;> cases b <;> simp_all [gnodeShape, gnodeId?, GNode.isFeatureNode]

theorem graphExtends_addEdge_of {g g' : Graph} (s t : Nat) (d : GEdgeData)
    (h : graphExtends g g') : graphExtends g (g'.addEdge s t d) := h

theorem graphExtends_setNode {g : Graph} {i : Nat} {id : Kid} {pk : Package}
    {fs : StrSet} (pk' : Package) (fs' : StrSet)
    (h : g.nodes.get? i = some (.krate id pk fs)) :
    graphExtends g (g.setNode i (.krate id pk' fs')) := by
  have hi : i < g.nodes.length := (List.get?_eq_some.mp h).1
  refine ⟨by simp [Graph.setNode], ?_, ?_⟩
  · intro j hj
    show gnodeShape (g.nodes.get? j) ((g.nodes.set i _).get? j)
    simp only [List.get?_eq_getElem?]
    by_cases hij : i = j
    · subst hij
      rw [List.getElem?_set_self hi,
        show g.nodes[i]? = some (.krate id pk fs) from
          (List.get?_eq_getElem? g.nodes i) ▸ h]
      exact rfl
    · rw [List.getElem?_set_ne hij]
      exact gnodeShape_refl _ (by rw [List.getElem?_eq_getElem hj]; rfl)
  · intro j nd hle hget
    obtain ⟨hlt, _⟩ := List.get?_eq_some.mp hget
    rw [show (g.setNode i (.krate id pk' fs')).nodes.length
      = g.nodes.length by simp [Graph.setNode]] at hlt
    omega

theorem foldlM_graphExtends {α β : Type} (f : β → α → Option β)
    (proj : β → Graph)
    (hstep : ∀ st a st', f st a = some st' →
      graphExtends (proj st) (proj st')) :
    ∀ (l : List α) (st st' : β), l.foldlM f st = some st' →
      graphExtends (proj st) (proj st') := by
  intro l
  induction l with
  | nil =>
    intro st st' h
    rw [List.foldlM_nil] at h
    rw [← Option.some.inj h]
    exact graphExtends_refl _
  | cons a l' ih =>
    intro st st' h
    rw [List.foldlM_cons] at h
    rcases h1 : f st a with _ | st1 <;> rw [h1] at h
    · cases h
    · exact graphExtends_trans (hstep st a st1 h1) (ih st1 st' h)

theorem foldl_graphExtends {α β : Type} (f : β → α → β) (proj : β → Graph)
    (hstep : ∀ st a, graphExtends (proj st) (proj (f st a))) :
    ∀ (l : List α) (st : β), graphExtends (proj st) (proj (l.foldl f st)) := by
  intro l
  induction l with
  | nil => intro st; exact graphExtends_refl _
  | cons a l' ih =>
    intro st
    rw [List.foldl_cons]
    exact graphExtends_trans (hstep st a) (ih (f st a))

theorem attachFeatureEdge_extends (g : Graph) (ke : Nat) (depId : Kid)
    (tk srcid : Nat) (feat : Str) (ed : GEdgeData) :
    graphExtends g (attachFeatureEdge g ke depId tk srcid feat ed) := by
  unfold attachFeatureEdge
  rcases h : graphGet g ke depId (some feat) with _ | fn
  · exact graphExtends_addEdge_of _ _ _
      (graphExtends_addNodeFeature g tk feat)
  · exact graphExtends_addEdge g srcid fn ed

theorem attachOneFeature_extends {ke : Nat} {depId : Kid} {tk srcid : Nat}
    {rnode : RNode} {ed : GEdgeData} {g g' : Graph} {fi : Nat}
    (h : attachOneFeature ke depId tk srcid rnode ed g fi = some g') :
    graphExtends g g' := by
  unfold attachOneFeature at h
  simp only [Option.bind_eq_bind] at h
  rcases hfeat : rnode.feature fi with _ | fname <;> rw [hfeat] at h
  · cases h
  · simp only [Option.some_bind] at h
    rw [← Option.some.inj h]
    exact attachFeatureEdge_extends g ke depId tk srcid fname ed

theorem attachOneEdge_extends {ke : Nat} {depId : Kid} {tk srcid : Nat}
    {rnode : RNode} {g g' : Graph} {edge : DependencyEdge}
    (h : attachOneEdge ke depId tk srcid rnode g edge = some g') :
    graphExtends g g' := by
  unfold attachOneEdge at h
  simp only [Option.bind_eq_bind] at h
  rcases hif : edge.features.foldlM
      (attachOneFeature ke depId tk srcid rnode
        (.depFeature edge.kind edge.cfg)) g with _ | g1 <;> rw [hif] at h
  · cases h
  · simp only [Option.some_bind] at h
    have hinner : graphExtends g g1 :=
      foldlM_graphExtends _ id
        (fun sg fi sg' hfi => attachOneFeature_extends hfi)
        edge.features g g1 hif
    split at h <;> rw [← Option.some.inj h]
    · exact graphExtends_addEdge_of _ _ _ hinner
    · exact hinner

theorem attachDepEdges_extends {nodes : List RNode} {ke srcid : Nat}
    {g g' : Graph} {entry : Kid × KrateDependency}
    (h : attachDepEdges nodes ke srcid g entry = some g') :
    graphExtends g g' := by
  unfold attachDepEdges at h
  rcases hg : graphGet g ke entry.1 none with _ | tk <;> rw [hg] at h
  · rw [← Option.some.inj h]
    exact graphExtends_refl g
  · simp only [Option.bind_eq_bind] at h
    rcases hr : getRnode nodes entry.1 with _ | rnode <;> rw [hr] at h
    · cases h
    · simp only [Option.some_bind] at h
      rcases hf : entry.2.edges.foldlM
          (attachOneEdge ke entry.1 tk srcid rnode) g with _ | g1 <;>
        rw [hf] at h
      · cases h
      · simp only [Option.some_bind] at h
        have he1 : graphExtends g g1 :=
          foldlM_graphExtends _ id
            (fun st a st' hstep => attachOneEdge_extends hstep)
            entry.2.edges g g1 hf
        have he2 : graphExtends g1 g' :=
          foldlM_graphExtends _ id
            (fun sg fi sg' hfi => attachOneFeature_extends hfi)
            entry.2.features g1 g' h
        exact graphExtends_trans he1 he2

theorem crateEdgesStep_extends {nodes : List RNode} {ke : Nat}
    {st stn : Graph × KMap PackageNode} {srcind : Nat}
    (h : crateEdgesStep nodes ke st srcind = some stn) :
    graphExtends st.1 stn.1 := by
  unfold crateEdgesStep at h
  rcases hn : st.1.nodes.get? srcind with _ | nd
  · rw [hn] at h
    rw [← Option.some.inj h]
    exact graphExtends_refl _
  · rcases nd with ⟨pid, pk, fs⟩ | ⟨ki, nm⟩
    · rw [hn] at h
      rcases hrem : (kmRemove st.2 pid).1 with _ | pn <;>
        simp only [hrem] at h
      · rw [← Option.some.inj h]
        exact graphExtends_refl _
      · simp only [Option.bind_eq_bind] at h
        rcases hdeps : pn.deps.foldlM
            (attachDepEdges nodes ke srcind) st.1 with _ | gx <;>
          rw [hdeps] at h
        · cases h
        · simp only [Option.some_bind] at h
          rw [← Option.some.inj h]
          exact foldlM_graphExtends _ id
            (fun sg e sg' hde => attachDepEdges_extends hde)
            pn.deps st.1 gx hdeps
    · rw [hn] at h
      rw [← Option.some.inj h]
      exact graphExtends_refl _

theorem crateEdgesPhase_extends {nodes : List RNode} {ke : Nat} {g0 : Graph}
    {dem : KMap PackageNode} {g' : Graph}
    (h : crateEdgesPhase nodes ke g0 dem = some g') :
    graphExtends g0 g' := by
  unfold crateEdgesPhase at h
  rw [Option.map_eq_some'] at h
  obtain ⟨st', hf, heq⟩ := h
  rw [← heq]
  exact foldlM_graphExtends _ Prod.fst
    (fun st a stn hstep => crateEdgesStep_extends hstep)
    (List.range ke) (g0, dem) st' hf

theorem getOrInsertFeature_extends {g : Graph} {ke : Nat} {kid : Kid}
    {feat : Str} {gs : Graph × Nat}
    (h : getOrInsertFeature g ke kid feat = some gs) :
    graphExtends g gs.1 := by
  unfold getOrInsertFeature at h
  rcases hg : graphGet g ke kid (some feat) with _ | nid <;> rw [hg] at h
  · simp only [Option.bind_eq_bind] at h
    rcases hki : graphGet g ke kid none with _ | ki <;> rw [hki] at h
    · cases h
    · simp only [Option.some_bind] at h
      rw [← Option.some.inj h]
      exact graphExtends_addNodeFeature g ki feat
  · rw [← Option.some.inj h]
    exact graphExtends_refl g

theorem wireNewSub_extends (kind : Nat) (nm : Str) (acc : Graph × List Str) :
    graphExtends acc.1 (wireNewSub kind nm acc).1 := by
  unfold wireNewSub
  split
  · rename_i id pk feats hk
    split
    · exact graphExtends_trans (graphExtends_addNodeFeature _ _ _)
        (graphExtends_setNode pk (ssInsert feats nm) hk)
    · exact graphExtends_addNodeFeature _ _ _
  · exact graphExtends_addNodeFeature _ _ _

theorem wireSubFeature_extends (ke : Nat) (pid : Kid) (kind srcId : Nat)
    (acc : Graph × List Str) (subFeat : FeatureEdge) :
    graphExtends acc.1 (wireSubFeature ke pid kind srcId acc subFeat).1 := by
  unfold wireSubFeature
  split
  · exact graphExtends_refl _
  · rcases hg : graphGet acc.1 ke subFeat.kid (subFeatName subFeat.name)
        with _ | tid
    · exact graphExtends_addEdge_of _ _ _ (wireNewSub_extends _ _ _)
    · exact graphExtends_addEdge _ _ _ _

theorem wireFeatures_extends {ke : Nat} {pid : Kid} {kind : Nat} :
    ∀ (fuel : Nat) (g : Graph) (enabled : List (Str × List FeatureEdge))
      (stack : List Str) (g' : Graph),
      wireFeatures g ke pid kind fuel enabled stack = some g' →
      graphExtends g g' := by
  intro fuel
  induction fuel with
  | zero =>
    intro g enabled stack g' h
    cases stack with
    | nil =>
      have h' : some g = some g' := h
      rw [← Option.some.inj h']
      exact graphExtends_refl g
    | cons a rest =>
      have h' : (none : Option Graph) = some g' := h
      cases h'
  | succ fuel ih =>
    intro g enabled stack g' h
    cases stack with
    | nil =>
      have h' : some g = some g' := h
      rw [← Option.some.inj h']
      exact graphExtends_refl g
    | cons feat rest =>
      simp only [wireFeatures] at h
      rcases hfind : enabled.findIdx? (fun e => decide (e.1 = feat))
          with _ | i <;> simp only [hfind] at h
      · exact ih g enabled rest g' h
      · rcases hget : enabled.get? i with _ | entry <;>
          simp only [hget] at h
        · cases h
        · simp only [Option.bind_eq_bind] at h
          rcases hgo : getOrInsertFeature g ke pid feat with _ | gs <;>
            simp only [hgo, Option.some_bind, Option.none_bind] at h
          · cases h
          · refine graphExtends_trans (getOrInsertFeature_extends hgo) ?_
            refine graphExtends_trans
              (graphExtends_addEdge gs.1 gs.2 kind .feature) ?_
            refine graphExtends_trans
              (foldl_graphExtends _ Prod.fst
                (fun st a => wireSubFeature_extends ke pid kind gs.2 st a)
                entry.2 (gs.1.addEdge gs.2 kind .feature, rest)) ?_
            exact ih _ _ _ _ h

theorem wiringStep_extends {fuel ke : Nat} {g g' : Graph}
    {entry : Kid × KrateFeatures}
    (h : wiringStep fuel ke g entry = some g') : graphExtends g g' := by
  unfold wiringStep at h
  rcases hg : graphGet g ke entry.1 none with _ | kind <;>
    simp only [hg] at h
  · rw [← Option.some.inj h]
    exact graphExtends_refl g
  · rcases hn : g.nodes.get? kind with _ | nd <;> simp only [hn] at h
    · rw [← Option.some.inj h]
      exact graphExtends_refl g
    · rcases nd with ⟨a, b, c⟩ | ⟨a, b⟩ <;> simp only [] at h
      · exact wireFeatures_extends fuel g entry.2.graph c.reverse g' h
      · rw [← Option.some.inj h]
        exact graphExtends_refl g

theorem wiringPhase_extends {fuel : Nat} {g0 : Graph} {ke : Nat}
    {fem : KMap KrateFeatures} {g' : Graph}
    (h : wiringPhase fuel g0 ke fem = some g') : graphExtends g0 g' := by
  unfold wiringPhase at h
  exact foldlM_graphExtends _ id
    (fun g e g'' hs => wiringStep_extends hs) fem g0 g' h

theorem isFeatureNode_eq_false_of_id {nd : GNode} {x : Kid}
    (h : gnodeId? nd = some x) : nd.isFeatureNode = false := by
  cases nd <;> simp_all [gnodeId?, GNode.isFeatureNode]

theorem exists_krate_of_not_feature {nd : GNode}
    (h : nd.isFeatureNode = false) :
    ∃ id pk fs, nd = GNode.krate id pk fs := by
  cases nd
  · exact ⟨_, _, _, rfl⟩
  · simp [GNode.isFeatureNode] at h

/-- The node-id projections produced by the materialization fold: the
accumulated nodes followed by one package id per surviving entry, in
package order. -/
theorem matFold_ids {nodes : List RNode} {dem : KMap PackageNode}
    {fem : KMap KrateFeatures} :
    ∀ (l : List (Kid × Package)) (acc out : List GNode × List Package),
      l.foldlM (matStep nodes dem fem) acc = some out →
      out.1.map gnodeId? = acc.1.map gnodeId? ++
        (l.filter (fun p => (kmGet dem p.1).isSome)).map
          (fun p => some p.1) := by
  intro l
  induction l with
  | nil =>
    intro acc out h
    rw [List.foldlM_nil] at h
    rw [← Option.some.inj h]
    simp
  | cons p l' ih =>
    intro acc out h
    rw [List.foldlM_cons] at h
    rcases hstep : matStep nodes dem fem acc p with _ | acc' <;>
      rw [hstep] at h
    · cases h
    · have hout := ih acc' out h
      unfold matStep at hstep
      rcases hg : kmGet dem p.1 with _ | pn <;> rw [hg] at hstep
      · have hacc : acc' = (acc.1, acc.2 ++ [p.2]) :=
          (Option.some.inj hstep).symm
        rw [hout, hacc, List.filter_cons]
        simp [hg]
      · simp only [Option.bind_eq_bind] at hstep
        rcases hr : getRnode nodes p.1 with _ | rnode <;> rw [hr] at hstep
        · cases hstep
        · simp only [Option.some_bind] at hstep
          rcases hf : matFeatures fem p.1 rnode pn with _ | feats <;>
            rw [hf] at hstep
          · cases hstep
          · have hacc : acc' = (acc.1 ++ [GNode.krate p.1 p.2 feats], acc.2) :=
              (Option.some.inj hstep).symm
            rw [hout, hacc, List.filter_cons]
            simp [hg, gnodeId?]

theorem filterMap_eq_of_map_eq {α β γ : Type} {f : α → Option γ}
    {g : β → Option γ} :
    ∀ {l1 : List α} {l2 : List β}, l1.map f = l2.map g →
      l1.filterMap f = l2.filterMap g := by
  intro l1
  induction l1 with
  | nil =>
    intro l2 h
    cases l2
    · rfl
    · simp at h
  | cons a t ih =>
    intro l2 h
    cases l2 with
    | nil => simp at h
    | cons b t2 =>
      simp only [List.map_cons, List.cons.injEq] at h
      obtain ⟨h1, h2⟩ := h
      rw [List.filterMap_cons, List.filterMap_cons, h1]
      cases g b <;> simp [ih h2]

theorem filterMap_some_fst {α β : Type} (l : List (α × β)) :
    l.filterMap (fun p => some p.1) = l.map Prod.fst := by
  induction l with
  | nil => rfl
  | cons a t ih => rw [List.filterMap_cons, List.map_cons, ih]

theorem filterMap_gnode (l : List GNode) :
    l.filterMap (fun n =>
      match n with
      | .krate id _ _ => some id
      | .feature _ _ => none) = l.filterMap gnodeId? := by
  induction l with
  | nil => rfl
  | cons a t ih =>
    rw [List.filterMap_cons, List.filterMap_cons, ih]
    cases a <;> rfl

/-- The sort of the package table really sorts (by the `Kid`
ordering). -/
theorem sortByKid_sorted {α : Type} (key : α → Kid) (l : List α) :
    (sortByKid key l).Pairwise (fun a b => Kid.cmp (key a) (key b) ≠ .gt) := by
  unfold sortByKid
  haveI ht : IsTotal α (fun a b => Kid.cmp (key a) (key b) ≠ .gt) :=
    ⟨fun a b => kidCmp_le_total (key a) (key b)⟩
  haveI htr : IsTrans α (fun a b => Kid.cmp (key a) (key b) ≠ .gt) :=
    ⟨fun a b c h1 h2 => kidCmp_le_trans h1 h2⟩
  exact List.sorted_insertionSort _ l

/-- A parsed package table with pairwise-distinct ids is strictly
increasing. -/
theorem parsePackages_pairwise_lt {l : List (Str × Package)}
    {ps : List (Kid × Package)} (h : parsePackages l = some ps)
    (hdist : ps.Pairwise (fun p q => Kid.cmp p.1 q.1 ≠ .eq)) :
    ps.Pairwise (fun p q => Kid.cmp p.1 q.1 = .lt) := by
  have hsort : ps.Pairwise (fun p q => Kid.cmp p.1 q.1 ≠ .gt) := by
    unfold parsePackages at h
    rw [Option.map_eq_some'] at h
    obtain ⟨l0, hm, heq⟩ := h
    rw [← heq]
    exact sortByKid_sorted _ l0
  refine (hsort.and hdist).imp ?_
  intro a b hab
  obtain ⟨h1, h2⟩ := hab
  rcases hc : Kid.cmp a.1 b.1 with _ | _ | _
  · rfl
  · exact absurd hc h2
  · exact absurd hc h1

theorem graphExtends_prefix_ids {g1 g3 : Graph} (hext : graphExtends g1 g3) :
    ∀ i, i < g1.nodes.length →
      (g3.nodes.get? i).map gnodeId? = (g1.nodes.get? i).map gnodeId? ∧
      (g3.nodes.get? i).map GNode.isFeatureNode =
        (g1.nodes.get? i).map GNode.isFeatureNode := by
  intro i hi
  have hs := hext.2.1 i hi
  rcases h1 : g1.nodes.get? i with _ | a <;> rw [h1] at hs
  · exfalso
    rcases h3 : g3.nodes.get? i with _ | c <;> rw [h3] at hs
    · exact hs
    · cases c <;> exact hs
  · rcases h3 : g3.nodes.get? i with _ | c <;> rw [h3] at hs
    · exfalso
      cases a <;> exact hs
    · obtain ⟨hid, hfe⟩ := gnodeShape_id hs
      simp [hid, hfe]

/-- The node prefix of an extension keeps the id projection of the
original node table. -/
theorem graphExtends_prefix_map {g1 g3 : Graph} (hext : graphExtends g1 g3) :
    (g3.nodes.take g1.nodes.length).map gnodeId? =
      g1.nodes.map gnodeId? := by
  apply List.ext_getElem?
  intro n
  rw [List.getElem?_map, List.getElem?_map, List.getElem?_take]
  by_cases hn : n < g1.nodes.length
  · simp only [hn, if_true]
    have hm := (graphExtends_prefix_ids hext n hn).1
    rw [List.get?_eq_getElem?, List.get?_eq_getElem?] at hm
    exact hm
  · simp only [hn, if_false]
    rw [List.getElem?_eq_none (Nat.le_of_not_lt hn)]

/-- A successful setup's package table is the parsed (and sorted)
package list of the input metadata. -/
theorem buildSetup_packages {b : Builder} {md : Metadata} {resolved : Resolve}
    {ctx : BuildCtx} {st0 : BuildState}
    (h : buildSetup b md resolved = some (ctx, st0)) :
    parsePackages md.packages = some ctx.packages := by
  unfold buildSetup at h
  simp only [Option.bind_eq_bind] at h
  rcases hpk : parsePackages md.packages with _ | packages <;> rw [hpk] at h
  · cases h
  · simp only [Option.some_bind] at h
    rcases hwm : parseMembers md.workspaceMembers with _ | wm <;> rw [hwm] at h
    · cases h
    · simp only [Option.some_bind] at h
      rcases hr : parseRoot resolved.root with _ | root <;> rw [hr] at h
      · cases h
      · simp only [Option.some_bind] at h
        rcases hn : parseRNodes packages resolved.nodes with _ | nodes <;>
          rw [hn] at h
        · cases h
        · simp only [Option.some_bind] at h
          rcases hst : seedStack nodes
              (computeRoots b md packages wm root) with _ | stack <;>
            rw [hst] at h
          · cases h
          · simp only [Option.some_bind, Option.some.injEq,
              Prod.mk.injEq] at h
            obtain ⟨hctx, hst0⟩ := h
            subst hctx
            rfl

/-- Decomposition of a successful build: the final graph is obtained
from the materialized package-node table by the two
capability-preserving edge phases. -/
theorem build_ok_decomp {b : Builder} {md : Metadata} {fuel : Nat}
    {k : Krates} {fl : List Package}
    (h : buildWithMetadata b md fuel = some (.ok (k, fl))) :
    ∃ (ctx : BuildCtx) (stF : BuildState)
      (mr : List GNode × List Package) (g2 : Graph),
      parsePackages md.packages = some ctx.packages ∧
      materializeNodes ctx.nodes stF.depEdgeMap stF.featureEdgeMap
        ctx.packages = some mr ∧
      graphExtends { nodes := mr.1, edges := [] } g2 ∧
      k.graph = g2 ∧ k.kratesEnd = mr.1.length := by
  unfold buildWithMetadata at h
  rcases hres : md.resolve with _ | resolved <;> rw [hres] at h
  · exact absurd (Option.some.inj h) (by simp)
  · simp only [Option.bind_eq_bind] at h
    rcases hsetup : buildSetup b md resolved with _ | p <;> rw [hsetup] at h
    · cases h
    · simp only [Option.some_bind] at h
      obtain ⟨ctx, st0⟩ := p
      rcases hloop : buildLoop ctx fuel st0 with _ | stF <;> rw [hloop] at h
      · cases h
      · simp only [Option.some_bind] at h
        unfold buildFinish at h
        split at h
        · exact absurd (Option.some.inj h) (by simp)
        · simp only [Option.bind_eq_bind] at h
          rcases hm : materializeNodes ctx.nodes stF.depEdgeMap
              stF.featureEdgeMap ctx.packages with _ | mr <;> rw [hm] at h
          · cases h
          · simp only [Option.some_bind] at h
            rcases hce : crateEdgesPhase ctx.nodes mr.1.length
                { nodes := mr.1, edges := [] } stF.depEdgeMap with _ | gA <;>
              rw [hce] at h
            · cases h
            · simp only [Option.some_bind] at h
              rcases hw : wiringPhase fuel gA mr.1.length
                  stF.featureEdgeMap with _ | gB <;> rw [hw] at h
              · cases h
              · simp only [Option.some_bind] at h
                have hr := Option.some.inj h
                have hk := Except.ok.inj hr
                refine ⟨ctx, stF, mr, gB, buildSetup_packages hsetup, hm,
                  ?_, ?_, ?_⟩
                · exact graphExtends_trans (crateEdgesPhase_extends hce)
                    (wiringPhase_extends hw)
                · exact (congrArg (fun p => p.1.graph) hk).symm
                · exact (congrArg (fun p => p.1.kratesEnd) hk).symm

/-- C6: in every graph returned by a successful build — of metadata
whose parsed package table carries pairwise-distinct identifiers, as
cargo metadata does — the first `krates_end` entries of the node table
are exactly the package nodes, in strictly increasing identifier order
(hence with no duplicate identifier), every capability node comes
after that prefix, and `nid_for_kid` finds an index exactly when a
package node with a matching identifier is in the graph. -/
theorem node_table_invariant {b : Builder} {md : Metadata} {fuel : Nat}
    {k : Krates} {fl : List Package}
    (hbuild : buildWithMetadata b md fuel = some (.ok (k, fl)))
    (hdist : ∀ ps, parsePackages md.packages = some ps →
      ps.Pairwise (fun p q => Kid.cmp p.1 q.1 ≠ .eq)) :
    k.kratesEnd ≤ k.graph.nodes.length ∧
    (∀ i nd, i < k.kratesEnd → k.graph.nodes.get? i = some nd →
      nd.isFeatureNode = false) ∧
    k.krateIds.Pairwise (fun a b => Kid.cmp a b = .lt) ∧
    (∀ i nd, k.kratesEnd ≤ i → k.graph.nodes.get? i = some nd →
      nd.isFeatureNode = true) ∧
    (∀ kid, (k.nidForKid kid).isSome ↔
      ∃ nd ∈ k.graph.nodes, ∃ id pk fs,
        nd = GNode.krate id pk fs ∧ kidBeq id kid = true) := by
  obtain ⟨ctx, stF, mr, g2, hpp, hm, hext, hkg, hke⟩ := build_ok_decomp hbuild
  rw [← hkg] at hext
  unfold materializeNodes at hm
  have hids : mr.1.map gnodeId? =
      (ctx.packages.filter
        (fun p => (kmGet stF.depEdgeMap p.1).isSome)).map
          (fun p => some p.1) := by
    have hfold := matFold_ids ctx.packages ([], []) mr hm
    simpa using hfold
  have hA : k.kratesEnd ≤ k.graph.nodes.length := by
    rw [hke]
    exact hext.1
  have hPrefMap : (k.graph.nodes.take k.kratesEnd).map gnodeId? =
      mr.1.map gnodeId? := by
    rw [hke]
    exact graphExtends_prefix_map hext
  have hB : ∀ i nd, i < k.kratesEnd → k.graph.nodes.get? i = some nd →
      nd.isFeatureNode = false := by
    intro i nd hi hnd
    have hi' : i < mr.1.length := hke ▸ hi
    have hpi := (graphExtends_prefix_ids hext i hi').1
    obtain ⟨nd1, hnd1⟩ : ∃ nd1, mr.1.get? i = some nd1 := by
      rw [List.get?_eq_getElem?]
      exact ⟨_, List.getElem?_eq_getElem hi'⟩
    rw [hnd, hnd1] at hpi
    obtain ⟨q, hq⟩ : ∃ q, gnodeId? nd1 = some q := by
      have hmapped : (mr.1.map gnodeId?)[i]? = some (gnodeId? nd1) := by
        rw [List.getElem?_map, ← List.get?_eq_getElem?, hnd1]
        rfl
      rw [hids, List.getElem?_map] at hmapped
      rcases hfq : (ctx.packages.filter
          (fun p => (kmGet stF.depEdgeMap p.1).isSome))[i]? with _ | q <;>
        rw [hfq] at hmapped
      · cases hmapped
      · exact ⟨q.1, (Option.some.inj hmapped).symm⟩
    have hndq : gnodeId? nd = some q := by
      rw [Option.some.inj hpi, hq]
    exact isFeatureNode_eq_false_of_id hndq
  have hC : k.krateIds.Pairwise (fun a b => Kid.cmp a b = .lt) := by
    have h1 : k.krateIds =
        (k.graph.nodes.take k.kratesEnd).filterMap gnodeId? :=
      filterMap_gnode _
    have h2 : (k.graph.nodes.take k.kratesEnd).filterMap gnodeId? =
        (ctx.packages.filter
          (fun p => (kmGet stF.depEdgeMap p.1).isSome)).filterMap
            (fun p => some p.1) :=
      filterMap_eq_of_map_eq (by rw [hPrefMap, hids])
    rw [h1, h2, filterMap_some_fst, List.pairwise_map]
    exact List.Pairwise.filter _ (parsePackages_pairwise_lt hpp (hdist _ hpp))
  have hD : ∀ i nd, k.kratesEnd ≤ i → k.graph.nodes.get? i = some nd →
      nd.isFeatureNode = true := by
    intro i nd hle hnd
    exact hext.2.2 i nd (hke ▸ hle) hnd
  refine ⟨hA, hB, hC, hD, ?_⟩
  intro kid
  constructor
  · intro hsome
    have hany : ((k.graph.nodes.take k.kratesEnd).any (fun n =>
        match n with
        | .krate id _ _ => kidBeq id kid
        | .feature _ _ => false)) = true := by
      rw [← List.findIdx?_isSome]
      exact hsome
    rw [List.any_eq_true] at hany
    obtain ⟨x, hxmem, hxp⟩ := hany
    rcases x with ⟨id, pk, fs⟩ | ⟨ki, nm⟩
    · exact ⟨_, List.mem_of_mem_take hxmem, id, pk, fs, rfl, hxp⟩
    · cases hxp
  · rintro ⟨nd, hmem, id, pk, fs, rfl, hbeq⟩
    obtain ⟨n, hn, hgetn⟩ := List.mem_iff_getElem.mp hmem
    have hn' : n < k.kratesEnd := by
      by_contra hge
      have hfeat := hD n (GNode.krate id pk fs) (Nat.le_of_not_lt hge)
        (by rw [List.get?_eq_getElem?, List.getElem?_eq_getElem hn, hgetn])
      cases hfeat
    show ((k.graph.nodes.take k.kratesEnd).findIdx? (fun n =>
        match n with
        | .krate id _ _ => kidBeq id kid
        | .feature _ _ => false)).isSome = true
    rw [List.findIdx?_isSome, List.any_eq_true]
    refine ⟨GNode.krate id pk fs, ?_, hbeq⟩
    have hup : (k.graph.nodes.take k.kratesEnd)[n]? =
        some (GNode.krate id pk fs) := by
      rw [List.getElem?_take]
      simp only [hn', if_true]
      rw [List.getElem?_eq_getElem hn, hgetn]
    exact List.getElem?_mem hup

theorem node_table_invariant_witness :
    ∃ (k : Krates) (fl : List Package),
      buildWithMetadata Builder.new mdKindFilter 100 = some (.ok (k, fl)) ∧
      k.kratesEnd ≤ k.graph.nodes.length ∧
      k.krateIds.Pairwise (fun a b => Kid.cmp a b = .lt) := by
  obtain ⟨k, fl, hok⟩ : ∃ (k : Krates) (fl : List Package),
      buildWithMetadata Builder.new mdKindFilter 100 = some (.ok (k, fl)) := by
    rcases h : buildWithMetadata Builder.new mdKindFilter 100 with _ | r
    · have hv : (buildWithMetadata Builder.new mdKindFilter 100).isSome
          = true := rfl
      rw [h] at hv
      exact Bool.noConfusion hv
    · rcases r with e | p
      · have hv : (match buildWithMetadata Builder.new mdKindFilter 100 with
            | some (.ok _) => true
            | _ => false) = true := rfl
        rw [h] at hv
        exact Bool.noConfusion hv
      · exact ⟨p.1, p.2, rfl⟩
  have hd : ∀ ps, parsePackages mdKindFilter.packages = some ps →
      ps.Pairwise (fun p q => Kid.cmp p.1 q.1 ≠ .eq) := by
    intro ps hps
    have hval : parsePackages mdKindFilter.packages =
        some ((parsePackages mdKindFilter.packages).getD []) := rfl
    rw [hval] at hps
    obtain rfl := Option.some.inj hps
    decide
  have H := node_table_invariant hok hd
  exact ⟨k, fl, hok, H.1, H.2.2.1⟩

/-! ## Weak-only optional dependencies (C1) -/

theorem kmGet_isSome_mem {α : Type} {m : KMap α} {k : Kid}
    (h : (kmGet m k).isSome = true) : ∃ e ∈ m, kidBeq e.1 k = true := by
  unfold kmGet at h
  rcases hf : m.find? (fun e => kidBeq e.1 k) with _ | e
  · rw [hf] at h
    cases h
  · exact ⟨e, List.mem_of_find?_eq_some hf,
      by have hx := List.find?_some hf; exact hx⟩

theorem kmGet_eq_some_mem {α : Type} {m : KMap α} {k : Kid} {v : α}
    (h : kmGet m k = some v) : ∃ e ∈ m, kidBeq e.1 k = true ∧ e.2 = v := by
  unfold kmGet at h
  rcases hf : m.find? (fun e => kidBeq e.1 k) with _ | e <;> rw [hf] at h
  · cases h
  · exact ⟨e, List.mem_of_find?_eq_some hf,
      by have hx := List.find?_some hf; exact hx, Option.some.inj h⟩

theorem kmContains_false {α : Type} {m : KMap α} {p x : Kid}
    (hclean : kmClean p m) (hx : kidBeq x p = true) :
    kmContains m x = false := by
  cases hb : (kmGet m x).isSome
  · exact hb
  · obtain ⟨e, hem, hek⟩ := kmGet_isSome_mem hb
    have hcontra := kidBeq_trans hek hx
    rw [hclean e hem] at hcontra
    cases hcontra

theorem kmClean_kmSet {α : Type} {p k : Kid} {m : KMap α} {v : α}
    (hm : kmClean p m) (hk : kidBeq k p = false) :
    kmClean p (kmSet m k v) := by
  intro e he
  rcases kmSet_mem e he with h | h
  · rw [h]
    exact hk
  · exact hm e h

theorem foldlM_inv {α β : Type} {f : β → α → Option β} {P : β → Prop} :
    ∀ {l : List α}, (∀ st a, a ∈ l → P st → ∀ st', f st a = some st' →
      P st') →
    ∀ {st st' : β}, P st → l.foldlM f st = some st' → P st' := by
  intro l
  induction l with
  | nil =>
    intro _ st st' hP h
    rw [List.foldlM_nil] at h
    rw [← Option.some.inj h]
    exact hP
  | cons a t ih =>
    intro hstep st st' hP h
    rw [List.foldlM_cons] at h
    rcases h1 : f st a with _ | st1 <;> rw [h1] at h
    · cases h
    · exact ih (fun s b hb hs s' hf => hstep s b (List.mem_cons_of_mem _ hb)
        hs s' hf) (hstep st a (List.mem_cons_self _ _) hP st1 h1) h

theorem foldl_inv {α β : Type} {f : β → α → β} {P : β → Prop}
    (hstep : ∀ st a, P st → P (f st a)) :
    ∀ (l : List α) (st : β), P st → P (l.foldl f st) := by
  intro l
  induction l with
  | nil => intro st h; exact h
  | cons a t ih =>
    intro st h
    rw [List.foldl_cons]
    exact ih _ (hstep st a h)

/-- The seeded stack only schedules roots. -/
theorem seedStack_clean {nodes : List RNode} {roots : List Kid} {p : Kid}
    {stack : List WorkItem}
    (hroots : ∀ r ∈ roots, kidBeq r p = false)
    (h : seedStack nodes roots = some stack) : stackClean p stack := by
  unfold seedStack at h
  refine foldlM_inv (P := stackClean p) ?_ (fun _ h => by cases h) h
  intro st root hr hP st' hf
  simp only [Option.bind_eq_bind] at hf
  rcases hrn : getRnode nodes root with _ | rnode <;> rw [hrn] at hf
  · cases hf
  · simp only [Option.some_bind] at hf
    rw [← Option.some.inj hf]
    refine foldl_inv (P := stackClean p) ?_ _ _ ?_
    · intro s feat hs it hit
      rcases List.mem_cons.mp hit with h1 | h1
      · rw [h1]
        exact hroots root hr
      · exact hs it h1
    · intro it hit
      rcases List.mem_cons.mp hit with h1 | h1
      · rw [h1]
        exact hroots root hr
      · exact hP it h1

theorem processSubRef_clean {rdepNode : RNode} {ndep : NodeDep}
    {featOpt : Option Str} {p : Kid}
    {acc out : KrateFeatures × KMap (NodeDep × Option NatSet) × List WorkItem}
    (hnp : kidBeq ndep.pkg p = false)
    (hdeps : kmClean p acc.2.1) (hstack : stackClean p acc.2.2)
    (h : processSubRef rdepNode ndep featOpt acc = some out) :
    kmClean p out.2.1 ∧ stackClean p out.2.2 := by
  unfold processSubRef at h
  rcases hrem : (kmRemove acc.1.pendingWeak ndep.pkg).1 with _ | pend <;>
    simp only [hrem, Option.bind_eq_bind, Option.some_bind,
      Option.none_bind] at h
  · rcases hcur : ((kmGet acc.2.1 ndep.pkg).getD (ndep, some [])).2
        with _ | s <;> simp only [hcur] at h
    · cases h
    · rcases featOpt with _ | f
      · rw [← Option.some.inj h]
        exact ⟨kmClean_kmSet hdeps hnp, hstack⟩
      · rcases hfi : rdepNode.featureIndex f with _ | fi <;>
          simp only [hfi, Option.bind_eq_bind, Option.some_bind,
            Option.none_bind] at h
        · cases h
        · rw [← Option.some.inj h]
          exact ⟨kmClean_kmSet hdeps hnp, hstack⟩
  · rcases hcur : ((kmGet acc.2.1 ndep.pkg).getD (ndep, some [])).2
        with _ | s <;> simp only [hcur] at h
    · cases h
    · have hdclean : kmClean p (kmSet acc.2.1 ndep.pkg
          (((kmGet acc.2.1 ndep.pkg).getD (ndep, some [])).1,
            some (pend.foldl (fun t n => (nsInsert t n).2) s))) :=
        kmClean_kmSet hdeps hnp
      rcases hcur2 : ((kmGet (kmSet acc.2.1 ndep.pkg
          (((kmGet acc.2.1 ndep.pkg).getD (ndep, some [])).1,
            some (pend.foldl (fun t n => (nsInsert t n).2) s)))
          ndep.pkg).getD (ndep, some [])).2 with _ | s2 <;>
        simp only [hcur2] at h
      · cases h
      · rcases featOpt with _ | f
        · rw [← Option.some.inj h]
          exact ⟨kmClean_kmSet hdclean hnp, hstack⟩
        · rcases hfi : rdepNode.featureIndex f with _ | fi <;>
            simp only [hfi, Option.bind_eq_bind, Option.some_bind,
              Option.none_bind] at h
          · cases h
          · rw [← Option.some.inj h]
            exact ⟨kmClean_kmSet hdclean hnp, hstack⟩

theorem processSubFeature_clean {nodes : List RNode} {rnode : RNode}
    {pid p : Kid} {pnDeps : KMap KrateDependency}
    {acc out : KrateFeatures × KMap (NodeDep × Option NatSet) × List WorkItem}
    {sf : Str}
    (hw : weakOnlyRef p rnode sf = true)
    (hpn : kmClean p pnDeps)
    (hpid : kidBeq pid p = false)
    (hdeps : kmClean p acc.2.1) (hstack : stackClean p acc.2.2)
    (h : processSubFeature nodes rnode pid pnDeps acc sf = some out) :
    kmClean p out.2.1 ∧ stackClean p out.2.2 := by
  unfold processSubFeature at h
  unfold weakOnlyRef at hw
  rcases hpf : parseFeature sf with kn | ⟨kn, ft⟩ | ⟨kn, ft⟩ | f <;>
    simp only [hpf] at h hw
  · rcases hfd : findNodeDep rnode.deps kn with _ | ndep <;>
      simp only [hfd] at h hw
    · rw [← Option.some.inj h]
      exact ⟨hdeps, hstack⟩
    · have hnp : kidBeq ndep.pkg p = false := by
        cases hbk : kidBeq ndep.pkg p
        · rfl
        · rw [hbk] at hw
          cases hw
      rcases hrn : getRnode nodes ndep.pkg with _ | rdepNode <;>
        simp only [hrn, Option.some_bind, Option.none_bind,
          Option.bind_eq_bind] at h
      · cases h
      · simp only [Bool.false_and] at h
        rw [if_neg (show ¬((false : Bool) = true) from by decide)] at h
        exact processSubRef_clean hnp hdeps hstack h
  · rcases hfd : findNodeDep rnode.deps kn with _ | ndep <;>
      simp only [hfd] at h
    · rw [← Option.some.inj h]
      exact ⟨hdeps, hstack⟩
    · rcases hrn : getRnode nodes ndep.pkg with _ | rdepNode <;>
        simp only [hrn, Option.some_bind, Option.none_bind,
          Option.bind_eq_bind] at h
      · cases h
      · cases hbk : kidBeq ndep.pkg p
        · rcases hkc : kmContains pnDeps ndep.pkg with _ | _ <;>
            simp only [hkc, Bool.not_false, Bool.not_true, Bool.true_and,
              Bool.and_false] at h
          · rcases hfi : rdepNode.featureIndex ft with _ | fi <;>
              simp only [hfi, Option.bind_eq_bind, Option.some_bind,
                Option.none_bind] at h
            · cases h
            · rw [← Option.some.inj h]
              exact ⟨hdeps, hstack⟩
          · rw [if_neg (show ¬((false : Bool) = true) from by decide)] at h
            exact processSubRef_clean hbk hdeps hstack h
        · rw [kmContains_false hpn hbk] at h
          split at h
          · rcases hfi : rdepNode.featureIndex ft with _ | fi <;>
              simp only [hfi, Option.bind_eq_bind, Option.some_bind,
                Option.none_bind] at h
            · cases h
            · rw [← Option.some.inj h]
              exact ⟨hdeps, hstack⟩
          · rename_i hcond
            exact absurd (by decide) hcond
  · rcases hfd : findNodeDep rnode.deps kn with _ | ndep <;>
      simp only [hfd] at h hw
    · rw [← Option.some.inj h]
      exact ⟨hdeps, hstack⟩
    · have hnp : kidBeq ndep.pkg p = false := by
        cases hbk : kidBeq ndep.pkg p
        · rfl
        · rw [hbk] at hw
          cases hw
      rcases hrn : getRnode nodes ndep.pkg with _ | rdepNode <;>
        simp only [hrn, Option.some_bind, Option.none_bind,
          Option.bind_eq_bind] at h
      · cases h
      · simp only [Bool.false_and] at h
        rw [if_neg (show ¬((false : Bool) = true) from by decide)] at h
        exact processSubRef_clean hnp hdeps hstack h
  · rcases hfi : rnode.featureIndex f with _ | idx <;>
      simp only [hfi, Option.some_bind, Option.none_bind,
        Option.bind_eq_bind] at h
    · cases h
    · rw [← Option.some.inj h]
      refine ⟨hdeps, ?_⟩
      intro it hit
      rcases List.mem_cons.mp hit with h1 | h1
      · rw [h1]
        exact hpid
      · exact hstack it h1

theorem optBind_eq_some {α β : Type} {x : Option α} {f : α → Option β} {b : β}
    (h : x >>= f = some b) : ∃ a, x = some a ∧ f a = some b := by
  rcases x with _ | a
  · simp at h
  · exact ⟨a, rfl, by simpa using h⟩

theorem foldl_inv_mem {α β : Type} {f : β → α → β} {P : β → Prop} :
    ∀ {l : List α}, (∀ st a, a ∈ l → P st → P (f st a)) →
    ∀ (st : β), P st → P (l.foldl f st) := by
  intro l
  induction l with
  | nil => intro _ st h; exact h
  | cons a t ih =>
    intro hstep st h
    rw [List.foldl_cons]
    exact ih (fun s b hb hs => hstep s b (List.mem_cons_of_mem _ hb) hs) _
      (hstep st a (List.mem_cons_self _ _) h)

theorem featuresGet_mem {m : List (Str × List Str)} {k : Str}
    {fs : List Str} (h : featuresGet m k = some fs) :
    ∃ e ∈ m, e.2 = fs := by
  unfold featuresGet at h
  rcases hf : m.find? (fun e => e.1 = k) with _ | e <;> rw [hf] at h
  · cases h
  · exact ⟨e, List.mem_of_find?_eq_some hf, Option.some.inj h⟩

theorem processFeatureRefs_clean {nodes : List RNode} {rnode : RNode}
    {krate : Package} {pid p : Kid} {pnDeps : KMap KrateDependency}
    {feature : Nat} {kf : KrateFeatures} {stack : List WorkItem}
    {out : KrateFeatures × KMap (NodeDep × Option NatSet) × List WorkItem}
    (hw : ∀ fe ∈ krate.features, ∀ sf ∈ fe.2, weakOnlyRef p rnode sf = true)
    (hpn : kmClean p pnDeps)
    (hpid : kidBeq pid p = false)
    (hstack : stackClean p stack)
    (h : processFeatureRefs nodes rnode krate pid pnDeps feature kf stack
      = some out) :
    kmClean p out.2.1 ∧ stackClean p out.2.2 := by
  unfold processFeatureRefs at h
  split at h
  · cases h
  · simp only [Option.bind_eq_bind] at h
    obtain ⟨featName, hfn, h⟩ := optBind_eq_some h
    have hstack2 : stackClean p
        (if !({ kf with actual := (nsInsert kf.actual feature).2 }
            : KrateFeatures).filledNonOptional
         then (pid, none) :: stack else stack) := by
      split
      · intro it hit
        rcases List.mem_cons.mp hit with h1 | h1
        · rw [h1]
          exact hpid
        · exact hstack it h1
      · exact hstack
    rcases hfg : featuresGet krate.features featName with _ | fs <;>
      simp only [hfg] at h
    · rw [← Option.some.inj h]
      exact ⟨fun e he => absurd he (List.not_mem_nil e), hstack2⟩
    · obtain ⟨fe, hfe, hfe2⟩ := featuresGet_mem hfg
      refine foldlM_inv
        (P := fun a => kmClean p a.2.1 ∧ stackClean p a.2.2) ?_
        ⟨fun e he => absurd he (List.not_mem_nil e), hstack2⟩ h
      intro a sf hsf hP a' hstep
      exact processSubFeature_clean (hw fe hfe sf (hfe2.symm ▸ hsf)) hpn hpid
        hP.1 hP.2 hstep

theorem processEdge_clean {pkg p : Kid} {rdepNode : RNode}
    {acc out :
      KrateDependency × List WorkItem × Option WorkItem × Option NatSet}
    {edge : EdgeData}
    (hpkg : kidBeq pkg p = false)
    (hstack : stackClean p acc.2.1)
    (hvd : ∀ it, acc.2.2.1 = some it → kidBeq it.1 p = false)
    (h : processEdge pkg rdepNode acc edge = some out) :
    stackClean p out.2.1 ∧
      (∀ it, out.2.2.1 = some it → kidBeq it.1 p = false) := by
  unfold processEdge at h
  have hstep : ∀ (s : List WorkItem) (feat : Nat),
      stackClean p s → stackClean p ((pkg, some feat) :: s) := by
    intro s feat hs it hit
    rcases List.mem_cons.mp hit with h1 | h1
    · rw [h1]
      exact hpkg
    · exact hs it h1
  rcases hfo : acc.2.2.2 with _ | fsel <;> simp only [hfo] at h
  · split at h
    · simp only [Option.bind_eq_bind] at h
      obtain ⟨fs2, hfold, hout⟩ := optBind_eq_some h
      rw [← Option.some.inj hout]
      have hstack1 : stackClean p
          (match acc.2.2.1 with
           | some it => it :: acc.2.1
           | none => acc.2.1) := by
        rcases hvd0 : acc.2.2.1 with _ | it0
        · exact hstack
        · intro it hit
          rcases List.mem_cons.mp hit with h1 | h1
          · rw [h1]
            exact hvd it0 hvd0
          · exact hstack it h1
      refine ⟨?_, fun it hit => by cases hit⟩
      refine foldlM_inv (P := fun q => stackClean p q.2) ?_ hstack1 hfold
      intro q a ha hP q' hq
      obtain ⟨fi, hfi, hsome⟩ := optBind_eq_some hq
      rw [← Option.some.inj hsome]
      exact hstep q.2 fi hP
    · rw [← Option.some.inj h]
      exact ⟨hstack, hvd⟩
  · have hmidstack : stackClean p
        (fsel.foldl
          (fun (q : KrateDependency × List WorkItem) feat =>
            ({ q.1 with features := (nsInsert q.1.features feat).2 },
              (pkg, some feat) :: q.2))
          (acc.1,
            match acc.2.2.1 with
            | some it => it :: acc.2.1
            | none => acc.2.1)).2 := by
      refine foldl_inv
        (P := fun (q : KrateDependency × List WorkItem) =>
          stackClean p q.2) ?_ _ _ ?_
      · intro q feat hq
        exact hstep q.2 feat hq
      · rcases hvd0 : acc.2.2.1 with _ | it0
        · exact hstack
        · intro it hit
          rcases List.mem_cons.mp hit with h1 | h1
          · rw [h1]
            exact hvd it0 hvd0
          · exact hstack it h1
    split at h
    · simp only [Option.bind_eq_bind] at h
      obtain ⟨fs2, hfold, hout⟩ := optBind_eq_some h
      rw [← Option.some.inj hout]
      refine ⟨?_, fun it hit => by cases hit⟩
      refine foldlM_inv (P := fun q => stackClean p q.2) ?_ hmidstack hfold
      intro q a ha hP q' hq
      obtain ⟨fi, hfi, hsome⟩ := optBind_eq_some hq
      rw [← Option.some.inj hsome]
      exact hstep q.2 fi hP
    · rw [← Option.some.inj h]
      exact ⟨hmidstack, fun it hit => by cases hit⟩

theorem processDepEntry_clean {ctx : BuildCtx} {krate : Package} {p : Kid}
    {isInWorkspace : Bool} {acc out : PackageNode × List WorkItem}
    {entry : Kid × NodeDep × Option NatSet}
    (hk : kidBeq entry.1 p = false)
    (hpn : kmClean p acc.1.deps) (hstack : stackClean p acc.2)
    (h : processDepEntry ctx krate isInWorkspace acc entry = some out) :
    kmClean p out.1.deps ∧ stackClean p out.2 := by
  unfold processDepEntry at h
  simp only [Option.bind_eq_bind] at h
  obtain ⟨rdepNode, hrn, h⟩ := optBind_eq_some h
  obtain ⟨rdepVersion, hrv, h⟩ := optBind_eq_some h
  obtain ⟨edgeOpts, hmo, h⟩ := optBind_eq_some h
  split at h
  · rw [← Option.some.inj h]
    exact ⟨hpn, hstack⟩
  · obtain ⟨res, hfold, hout⟩ := optBind_eq_some h
    have hres : stackClean p res.2.1 ∧
        (∀ it, res.2.2.1 = some it → kidBeq it.1 p = false) := by
      refine foldlM_inv (P := fun r => stackClean p r.2.1 ∧
        ∀ it, r.2.2.1 = some it → kidBeq it.1 p = false) ?_
        ⟨hstack, ?_⟩ hfold
      · intro r a ha hP r' hr
        exact processEdge_clean hk hP.1 hP.2 hr
      · intro it hit
        rw [← Option.some.inj hit]
        exact hk
    rw [← Option.some.inj hout]
    exact ⟨kmClean_kmSet hpn hk, hres.1⟩

theorem processDepEntry_drop {ctx : BuildCtx} {krate : Package} {p : Kid}
    {isInWorkspace : Bool} {acc out : PackageNode × List WorkItem}
    {entry : Kid × NodeDep × Option NatSet}
    (hk : kidBeq entry.1 p = true)
    (hshape : entry.2.1.pkg = entry.1)
    (hsn : entry.2.2 = none)
    (hdrop : depDropsTarget ctx p krate isInWorkspace entry.2.1 = true)
    (h : processDepEntry ctx krate isInWorkspace acc entry = some out) :
    out = acc := by
  unfold processDepEntry at h
  simp only [Option.bind_eq_bind] at h
  obtain ⟨rdepNode, hrn, h⟩ := optBind_eq_some h
  obtain ⟨rdepVersion, hrv, h⟩ := optBind_eq_some h
  obtain ⟨edgeOpts, hmo, h⟩ := optBind_eq_some h
  have hk' : kidBeq entry.2.1.pkg p = true := by
    rw [hshape]
    exact hk
  have hrn' : getRnode ctx.nodes entry.2.1.pkg = some rdepNode := by
    rw [hshape]
    exact hrn
  have hmo' : mapOpt (keepEdge ctx.ignoreKinds ctx.includeAllTargets
      ctx.targets isInWorkspace krate false (!rdepVersion.pre.isEmpty)
      entry.2.1 rdepVersion rdepNode.hasDefaultFeature entry.2.1.pkg.name)
      entry.2.1.depKinds = some edgeOpts := by
    rw [hshape]
    simpa [hsn] using hmo
  unfold depDropsTarget at hdrop
  split at hdrop
  · simp only [hrv, hrn'] at hdrop
    simp only [hmo'] at hdrop
    split at h
    · exact (Option.some.inj h).symm
    · rename_i hcond
      exact absurd hdrop hcond
  · rename_i hcond
    exact absurd hk' hcond

theorem depsFold_shape {deps0 : List NodeDep} :
    ∀ e ∈ deps0.foldl
      (fun m ndep => kmSet m ndep.pkg (ndep, (none : Option NatSet)))
      ([] : KMap (NodeDep × Option NatSet)),
      ∃ ndep ∈ deps0, e = (ndep.pkg, ndep, none) := by
  refine foldl_inv_mem
    (P := fun m => ∀ e ∈ m, ∃ ndep ∈ deps0, e = (ndep.pkg, ndep, none)) ?_
    _ (fun e he => absurd he (List.not_mem_nil e))
  intro m nd hnd hP e he
  rcases kmSet_mem e he with h1 | h1
  · exact ⟨nd, hnd, h1⟩
  · exact hP e h1

set_option maxHeartbeats 1600000 in
theorem processBranch_clean {ctx : BuildCtx} {st : BuildState} {pid p : Kid}
    {rnode : RNode} {krate : Package} {isInWorkspace : Bool}
    {kf : KrateFeatures} {pn : PackageNode} {feature : Option Nat}
    {out : BuildState}
    (hwo : ctxWeakOnly ctx p)
    (hrn : rnode ∈ ctx.nodes)
    (hq : ∃ q ∈ ctx.packages, q.2 = krate)
    (hpid : kidBeq pid p = false)
    (hst : stClean p st)
    (hpn : kmClean p pn.deps)
    (h : processBranch ctx st pid rnode krate isInWorkspace kf pn feature
      = some out) :
    stClean p out := by
  obtain ⟨hstk, hdem, hdemdeps⟩ := hst
  obtain ⟨q, hqm, hqk⟩ := hq
  subst hqk
  rcases feature with _ | feat
  · simp only [processBranch, Option.bind_eq_bind] at h
    obtain ⟨r2, hfold, hout⟩ := optBind_eq_some h
    have hr2 : kmClean p r2.1.deps ∧ stackClean p r2.2 := by
      refine foldlM_inv
        (P := fun a => kmClean p a.1.deps ∧ stackClean p a.2) ?_
        ⟨hpn, hstk⟩ hfold
      intro a e he hP a' hstep
      obtain ⟨ndep, hnd, hee⟩ := depsFold_shape e he
      subst hee
      cases hbk : kidBeq ndep.pkg p
      · exact processDepEntry_clean hbk hP.1 hP.2 hstep
      · have hdd := processDepEntry_drop hbk rfl rfl
          (hwo.2.2 q hqm rnode hrn ndep hnd isInWorkspace) hstep
        rw [hdd]
        exact hP
    rw [← Option.some.inj hout]
    refine ⟨hr2.2, kmClean_kmSet hdem hpid, ?_⟩
    intro e he
    rcases kmSet_mem e he with h1 | h1
    · rw [h1]
      exact hr2.1
    · exact hdemdeps e h1
  · simp only [processBranch, Option.bind_eq_bind] at h
    obtain ⟨r1, hpr, h⟩ := optBind_eq_some h
    obtain ⟨r2, hfold, hout⟩ := optBind_eq_some h
    have hr1 := processFeatureRefs_clean
      (fun fe hfe sf hsf => hwo.2.1 rnode hrn q hqm fe hfe sf hsf)
      hpn hpid hstk hpr
    have hr2 : kmClean p r2.1.deps ∧ stackClean p r2.2 := by
      refine foldlM_inv
        (P := fun a => kmClean p a.1.deps ∧ stackClean p a.2) ?_
        ⟨hpn, hr1.2⟩ hfold
      intro a e he hP a' hstep
      exact processDepEntry_clean (hr1.1 e he) hP.1 hP.2 hstep
    rw [← Option.some.inj hout]
    refine ⟨hr2.2, kmClean_kmSet hdem hpid, ?_⟩
    intro e he
    rcases kmSet_mem e he with h1 | h1
    · rw [h1]
      exact hr2.1
    · exact hdemdeps e h1

theorem processItem_clean {ctx : BuildCtx} {st : BuildState} {pid p : Kid}
    {feature : Option Nat} {out : BuildState}
    (hwo : ctxWeakOnly ctx p)
    (hpid : kidBeq pid p = false)
    (hst : stClean p st)
    (h : processItem ctx st pid feature = some out) : stClean p out := by
  unfold processItem at h
  split at h
  · rw [← Option.some.inj h]
    exact hst
  · simp only [Option.bind_eq_bind] at h
    obtain ⟨krateIndex, hki, h⟩ := optBind_eq_some h
    obtain ⟨rnode, hrn, h⟩ := optBind_eq_some h
    obtain ⟨pkgEntry, hpe, h⟩ := optBind_eq_some h
    split at h
    · rw [← Option.some.inj h]
      exact hst
    · have hpnc : kmClean p ((kmGet st.depEdgeMap pid).getD
          { isRoot := kidListContains ctx.roots pid, deps := [] }).deps := by
        rcases hg : kmGet st.depEdgeMap pid with _ | pn0 <;>
          simp only [hg, Option.getD]
        · exact fun e he => absurd he (List.not_mem_nil e)
        · obtain ⟨en, hen, hbeq, hv⟩ := kmGet_eq_some_mem hg
          rw [← hv]
          exact hst.2.2 en hen
      refine processBranch_clean hwo ?_ ⟨pkgEntry, ?_, rfl⟩ hpid
        ⟨hst.1, hst.2.1, hst.2.2⟩ hpnc h
      · rw [List.get?_eq_getElem?] at hrn
        exact List.getElem?_mem hrn
      · rw [List.get?_eq_getElem?] at hpe
        exact List.getElem?_mem hpe

theorem buildLoop_clean {ctx : BuildCtx} {p : Kid}
    (hwo : ctxWeakOnly ctx p) :
    ∀ (fuel : Nat) (st stF : BuildState), stClean p st →
      buildLoop ctx fuel st = some stF → stClean p stF := by
  intro fuel
  induction fuel with
  | zero =>
    intro st stF hc h
    simp only [buildLoop] at h
    rcases hvs : st.visitStack with _ | ⟨it, rest⟩ <;>
      simp only [hvs] at h
    · rw [← Option.some.inj h]
      exact hc
    · cases h
  | succ fuel ih =>
    intro st stF hc h
    simp only [buildLoop] at h
    rcases hvs : st.visitStack with _ | ⟨⟨ipid, ifeat⟩, rest⟩ <;>
      simp only [hvs] at h
    · rw [← Option.some.inj h]
      exact hc
    · simp only [Option.bind_eq_bind] at h
      obtain ⟨st1, hpi, h⟩ := optBind_eq_some h
      have hit : kidBeq ipid p = false := by
        have := hc.1 (ipid, ifeat) (by rw [hvs]; exact List.mem_cons_self _ _)
        exact this
      have hrest : stClean p { st with visitStack := rest } :=
        ⟨fun i hi => hc.1 i (by rw [hvs]; exact List.mem_cons_of_mem _ hi),
          hc.2.1, hc.2.2⟩
      exact ih st1 stF (processItem_clean hwo hit hrest hpi) h

/-- A successful setup's worklist stack is the seeded stack and its
dependency map is empty. -/
theorem buildSetup_state {b : Builder} {md : Metadata} {resolved : Resolve}
    {ctx : BuildCtx} {st0 : BuildState}
    (h : buildSetup b md resolved = some (ctx, st0)) :
    seedStack ctx.nodes ctx.roots = some st0.visitStack ∧
      st0.depEdgeMap = [] := by
  unfold buildSetup at h
  simp only [Option.bind_eq_bind] at h
  rcases hpk : parsePackages md.packages with _ | packages <;> rw [hpk] at h
  · cases h
  · simp only [Option.some_bind] at h
    rcases hwm : parseMembers md.workspaceMembers with _ | wm <;> rw [hwm] at h
    · cases h
    · simp only [Option.some_bind] at h
      rcases hr : parseRoot resolved.root with _ | root <;> rw [hr] at h
      · cases h
      · simp only [Option.some_bind] at h
        rcases hn : parseRNodes packages resolved.nodes with _ | nodes <;>
          rw [hn] at h
        · cases h
        · simp only [Option.some_bind] at h
          rcases hst : seedStack nodes
              (computeRoots b md packages wm root) with _ | stack <;>
            rw [hst] at h
          · cases h
          · simp only [Option.some_bind, Option.some.injEq,
              Prod.mk.injEq] at h
            obtain ⟨hctx, hst0⟩ := h
            subst hctx
            subst hst0
            exact ⟨hst, rfl⟩

/-- Full decomposition of a successful build, exposing the setup and
worklist stages. -/
theorem build_ok_chain {b : Builder} {md : Metadata} {fuel : Nat}
    {k : Krates} {fl : List Package}
    (h : buildWithMetadata b md fuel = some (.ok (k, fl))) :
    ∃ (resolved : Resolve) (ctx : BuildCtx) (st0 stF : BuildState)
      (mr : List GNode × List Package) (g2 : Graph),
      md.resolve = some resolved ∧
      buildSetup b md resolved = some (ctx, st0) ∧
      buildLoop ctx fuel st0 = some stF ∧
      materializeNodes ctx.nodes stF.depEdgeMap stF.featureEdgeMap
        ctx.packages = some mr ∧
      graphExtends { nodes := mr.1, edges := [] } g2 ∧
      k.graph = g2 ∧ k.kratesEnd = mr.1.length := by
  unfold buildWithMetadata at h
  rcases hres : md.resolve with _ | resolved <;> rw [hres] at h
  · exact absurd (Option.some.inj h) (by simp)
  · simp only [Option.bind_eq_bind] at h
    rcases hsetup : buildSetup b md resolved with _ | pr <;> rw [hsetup] at h
    · cases h
    · simp only [Option.some_bind] at h
      obtain ⟨ctx, st0⟩ := pr
      rcases hloop : buildLoop ctx fuel st0 with _ | stF <;> rw [hloop] at h
      · cases h
      · simp only [Option.some_bind] at h
        unfold buildFinish at h
        split at h
        · exact absurd (Option.some.inj h) (by simp)
        · simp only [Option.bind_eq_bind] at h
          rcases hm : materializeNodes ctx.nodes stF.depEdgeMap
              stF.featureEdgeMap ctx.packages with _ | mr <;> rw [hm] at h
          · cases h
          · simp only [Option.some_bind] at h
            rcases hce : crateEdgesPhase ctx.nodes mr.1.length
                { nodes := mr.1, edges := [] } stF.depEdgeMap with _ | gA <;>
              rw [hce] at h
            · cases h
            · simp only [Option.some_bind] at h
              rcases hw : wiringPhase fuel gA mr.1.length
                  stF.featureEdgeMap with _ | gB <;> rw [hw] at h
              · cases h
              · simp only [Option.some_bind] at h
                have hk := Except.ok.inj (Option.some.inj h)
                refine ⟨resolved, ctx, st0, stF, mr, gB, rfl, hsetup, hloop,
                  hm, ?_, ?_, ?_⟩
                · exact graphExtends_trans (crateEdgesPhase_extends hce)
                    (wiringPhase_extends hw)
                · exact (congrArg (fun r => r.1.graph) hk).symm
                · exact (congrArg (fun r => r.1.kratesEnd) hk).symm

/-- C1: a package referenced only through weak cross-package
references, never enabled by a root, a strong reference or a
non-optional dependency edge, has no node in the returned graph — no
package node with its identifier and no capability node owned by one —
and no edge of the graph targets it or one of its capabilities. -/
theorem weak_only_dep_absent {b : Builder} {md : Metadata} {fuel : Nat}
    {k : Krates} {fl : List Package} {p : Kid}
    (hbuild : buildWithMetadata b md fuel = some (.ok (k, fl)))
    (hcond : ∀ resolved ctx st0, md.resolve = some resolved →
      buildSetup b md resolved = some (ctx, st0) → ctxWeakOnly ctx p) :
    (∀ i nd, k.graph.nodes.get? i = some nd →
      nodeOwnedBy k.graph p nd = false) ∧
    (∀ e ∈ k.graph.edges, edgeTargetsPkg k.graph p e = false) := by
  obtain ⟨resolved, ctx, st0, stF, mr, g2, hres, hsetup, hloop, hm, hext,
    hkg, hke⟩ := build_ok_chain hbuild
  have hwo := hcond resolved ctx st0 hres hsetup
  obtain ⟨hseed, hdem0⟩ := buildSetup_state hsetup
  have hst0 : stClean p st0 := by
    refine ⟨seedStack_clean hwo.1 hseed, ?_, ?_⟩
    · rw [hdem0]
      exact fun e he => absurd he (List.not_mem_nil e)
    · rw [hdem0]
      exact fun e he => absurd he (List.not_mem_nil e)
  have hstF := buildLoop_clean hwo fuel st0 stF hst0 hloop
  rw [← hkg] at hext
  unfold materializeNodes at hm
  have hids := matFold_ids ctx.packages ([], []) mr hm
  simp only [List.map_nil, List.nil_append] at hids
  have hmatid : ∀ j nd1, mr.1.get? j = some nd1 →
      ∃ id, gnodeId? nd1 = some id ∧ kidBeq id p = false := by
    intro j nd1 hj
    have hmapped : (mr.1.map gnodeId?)[j]? = some (gnodeId? nd1) := by
      rw [List.getElem?_map, ← List.get?_eq_getElem?, hj]
      rfl
    rw [hids, List.getElem?_map] at hmapped
    rcases hfq : (ctx.packages.filter
        (fun q => (kmGet stF.depEdgeMap q.1).isSome))[j]? with _ | q <;>
      rw [hfq] at hmapped
    · cases hmapped
    · refine ⟨q.1, (Option.some.inj hmapped).symm, ?_⟩
      have hqmem := List.getElem?_mem hfq
      have hpred := (List.mem_filter.mp hqmem).2
      obtain ⟨e, hem, hek⟩ := kmGet_isSome_mem hpred
      cases hbq : kidBeq q.1 p
      · rfl
      · have hcontra := kidBeq_trans hek hbq
        rw [hstF.2.1 e hem] at hcontra
        cases hcontra
  have hF : ∀ j id pk fs, k.graph.nodes.get? j = some (.krate id pk fs) →
      kidBeq id p = false := by
    intro j id pk fs hj
    by_cases hlt : j < mr.1.length
    · have hpi := (graphExtends_prefix_ids hext j hlt).1
      obtain ⟨nd1, hnd1⟩ : ∃ nd1, mr.1.get? j = some nd1 := by
        rw [List.get?_eq_getElem?]
        exact ⟨_, List.getElem?_eq_getElem hlt⟩
      rw [hj, hnd1] at hpi
      obtain ⟨idq, hid1, hbq⟩ := hmatid j nd1 hnd1
      have hsome : gnodeId? (GNode.krate id pk fs) = some idq := by
        rw [Option.some.inj hpi, hid1]
      have hidq : id = idq := Option.some.inj hsome
      rw [hidq]
      exact hbq
    · have hfeat := hext.2.2 j (GNode.krate id pk fs)
        (Nat.le_of_not_lt hlt) hj
      cases hfeat
  have hnode : ∀ i nd, k.graph.nodes.get? i = some nd →
      nodeOwnedBy k.graph p nd = false := by
    intro i nd hnd
    rcases nd with ⟨id, pk, fs⟩ | ⟨ki, nm⟩
    · exact hF i id pk fs hnd
    · show (match k.graph.nodes.get? ki with
        | some (.krate id _ _) => kidBeq id p
        | _ => false) = false
      rcases hki : k.graph.nodes.get? ki with _ | nd2
      · rfl
      · rcases nd2 with ⟨id2, pk2, fs2⟩ | ⟨a, c⟩
        · exact hF ki id2 pk2 fs2 hki
        · rfl
  refine ⟨hnode, ?_⟩
  intro e he
  unfold edgeTargetsPkg
  rcases ht : k.graph.nodes.get? e.tgt with _ | nd
  · rfl
  · exact hnode e.tgt nd ht

theorem weak_only_dep_absent_witness :
    ∃ (k : Krates) (fl : List Package),
      buildWithMetadata Builder.new mdWeakOnly 100 = some (.ok (k, fl)) ∧
      (∀ i nd, k.graph.nodes.get? i = some nd →
        nodeOwnedBy k.graph kidBWeak nd = false) ∧
      (∀ e ∈ k.graph.edges, edgeTargetsPkg k.graph kidBWeak e = false) := by
  obtain ⟨k, fl, hok⟩ : ∃ (k : Krates) (fl : List Package),
      buildWithMetadata Builder.new mdWeakOnly 100 = some (.ok (k, fl)) := by
    rcases h : buildWithMetadata Builder.new mdWeakOnly 100 with _ | r
    · have hv : (buildWithMetadata Builder.new mdWeakOnly 100).isSome
          = true := rfl
      rw [h] at hv
      exact Bool.noConfusion hv
    · rcases r with e | pr
      · have hv : (match buildWithMetadata Builder.new mdWeakOnly 100 with
            | some (.ok _) => true
            | _ => false) = true := rfl
        rw [h] at hv
        exact Bool.noConfusion hv
      · exact ⟨pr.1, pr.2, rfl⟩
  have hcond : ∀ resolved ctx st0, mdWeakOnly.resolve = some resolved →
      buildSetup Builder.new mdWeakOnly resolved = some (ctx, st0) →
      ctxWeakOnly ctx kidBWeak := by
    intro resolved ctx st0 h1 h2
    have hv1 : mdWeakOnly.resolve =
        some (mdWeakOnly.resolve.getD ⟨[], none⟩) := rfl
    rw [hv1] at h1
    obtain rfl := Option.some.inj h1
    have hv2 : buildSetup Builder.new mdWeakOnly
        (mdWeakOnly.resolve.getD ⟨[], none⟩) =
        some ((buildSetup Builder.new mdWeakOnly
          (mdWeakOnly.resolve.getD ⟨[], none⟩)).getD
          (⟨{ packages := [], nodes := [], workspaceMembers := [],
              roots := [], exclude := [], targets := [],
              includeAllTargets := true, ignoreKinds := 0 },
            { visitStack := [], depEdgeMap := [],
              featureEdgeMap := [] }⟩)) := rfl
    rw [hv2] at h2
    have hctx : _ = ctx := congrArg Prod.fst (Option.some.inj h2)
    rw [← hctx]
    unfold ctxWeakOnly
    refine ⟨by decide, by decide, by decide⟩
  have H := weak_only_dep_absent hok hcond
  exact ⟨k, fl, hok, H.1, H.2⟩

/-- Witness for C3: with no target filters configured, the `cfg(any())`
variant is dropped (the filter yields `some none`), as the theorem
predicts at this concrete input. -/
theorem vacuous_false_cfg_edge_always_dropped_witness :
    keepEdge 0 true [] false vacuousPkg false false vacuousRdep
        ⟨0, 1, 0, [], []⟩ false (str "b")
        ⟨.normal, some (.cfg (some (.any [])))⟩ = some none ∧
      keepEdge 0 true [] false vacuousPkg false false vacuousRdep
        ⟨0, 1, 0, [], []⟩ false (str "b")
        ⟨.normal, some (.cfg (some (.any [])))⟩ ≠
          some (some ⟨.normal, none, [], false⟩) := by
  constructor
  · rfl
  · exact vacuous_false_cfg_edge_always_dropped 0 true [] false vacuousPkg
      false false vacuousRdep ⟨0, 1, 0, [], []⟩ false (str "b")
      ⟨.normal, some (.cfg (some (.any [])))⟩ (.any []) rfl rfl rfl
      ⟨.normal, none, [], false⟩

/-- Witness for C10: a spec with a url and a version matches a
source-less package of the same name and version. -/
theorem pkgspec_url_ignored_for_sourceless_packages_witness :
    PkgSpec.matches
      { name := str "a", version := some ⟨0, 1, 0, [], []⟩,
        url := some (str "https://github.com/x/a") }
      { name := str "a", version := ⟨0, 1, 0, [], []⟩,
        manifestPath := str "/ws/a/Cargo.toml", source := none,
        dependencies := [], features := [] } = true := by
  exact pkgspec_url_ignored_for_sourceless_packages _ _ (by decide) rfl rfl
    (fun v hv => by cases hv; rfl)

end Krates
